import Mathlib

/-!
Verification of the Email-Extractor crawler (`app.py`) against its
specification.  The Python source is shallowly embedded: pure helpers
(`normalize_text`, `extract_emails`, `is_internal_link`, `crawl_page`) become
Lean functions, the `urllib.parse` collaborators (`urlsplit`, `urlparse`,
`urlunsplit`, `urljoin`) are embedded following CPython 3.11's
`urllib/parse.py` (raising code paths become `Option`), and the Streamlit
thread-pool loop becomes an explicit state machine driven by a schedule of
completion batches (modelling `concurrent.futures.wait` outcomes) and a world
function mapping each URL to its HTTP result.
-/

namespace EmailCrawler

/-! ## Character classes and generic list-scanning infrastructure -/

/-- Python regex `\s` restricted to ASCII: space, tab, newline, carriage
return, vertical tab, form feed. -/
def isWs (c : Char) : Bool :=
  c == ' ' || c == '\t' || c == '\n' || c == '\r' || c == '\x0b' || c == '\x0c'

/-- Drop the maximal leading whitespace run (greedy `\s*`). -/
def skipWs : List Char → List Char
  | [] => []
  | c :: cs => if isWs c then skipWs cs else c :: cs

/-- `t` occurs at the start of `s`. -/
def startsWith (t s : List Char) : Prop := ∃ v, s = t ++ v

/-- `t` occurs at the end of `s`. -/
def tailOf (t s : List Char) : Prop := ∃ u, s = u ++ t

/-- `t` occurs somewhere inside `s`. -/
def occursIn (t s : List Char) : Prop := ∃ u v, s = u ++ t ++ v

/-! ## `normalize_text` (app.py lines 14-27)

Each entry of `OBFUSCATED_PATTERNS` is one of two regex shapes:
`\s*TOK\s*` (for the bracketed tokens `[at]`, `(at)`, `[dot]`, `(dot)`) and
`\s+TOK\s+` (for the bare ` at ` / ` dot `), each substituted by a single
character.  `re.sub` semantics for these patterns is deterministic (the
tokens start with a non-whitespace character, so greedy `\s*` / `\s+` never
backtracks into a successful match): scan left to right, at each position
attempt a match, on success emit the replacement and resume after the match,
on failure emit the character and advance by one. -/

/-- Attempt to match `\s*tok\s*` (`req = false`) or `\s+tok\s+` (`req = true`)
at the head of `s`; on success return the remainder of `s` after the match. -/
def tryPat (req : Bool) (tok : List Char) (s : List Char) : Option (List Char) :=
  if req then
    match s with
    | [] => none
    | c :: cs =>
      if isWs c then
        let s1 := skipWs cs
        if tok.isPrefixOf s1 then
          match s1.drop tok.length with
          | [] => none
          | d :: ds => if isWs d then some (skipWs ds) else none
        else none
      else none
  else
    let s1 := skipWs s
    if tok.isPrefixOf s1 then some (skipWs (s1.drop tok.length)) else none

/-- The `re.sub` scanner for one obfuscation pattern.  `fuel` is initialised
with the length of the text; every step consumes at least one character. -/
def subPat (req : Bool) (tok : List Char) (rep : Char) : Nat → List Char → List Char
  | 0, s => s
  | _ + 1, [] => []
  | fuel + 1, c :: cs =>
    match tryPat req tok (c :: cs) with
    | some rest => rep :: subPat req tok rep fuel rest
    | none => c :: subPat req tok rep fuel cs

/-- One `re.sub(pattern, replacement, text)` application. -/
def applyPat (req : Bool) (tok : List Char) (rep : Char) (s : List Char) : List Char :=
  subPat req tok rep s.length s

/-- `OBFUSCATED_PATTERNS` (app.py lines 14-21), in source order:
`\s*\[at\]\s*`, `\s*\(at\)\s*`, `\s+at\s+` go to `@`;
`\s*\[dot\]\s*`, `\s*\(dot\)\s*`, `\s+dot\s+` go to `.`. -/
def obfPatterns : List (Bool × List Char × Char) :=
  [(false, "[at]".data, '@'), (false, "(at)".data, '@'), (true, "at".data, '@'),
   (false, "[dot]".data, '.'), (false, "(dot)".data, '.'), (true, "dot".data, '.')]

/-- `normalize_text` (app.py lines 23-27): lowercase, then apply every
obfuscation rewrite in order to the already-partially-rewritten text. -/
def normalizeList (s : List Char) : List Char :=
  obfPatterns.foldl (fun t p => applyPat p.1 p.2.1 p.2.2 t) (s.map Char.toLower)

/-- String-level `normalize_text`. -/
def normalize_text (s : String) : String := String.mk (normalizeList s.data)

/-! ## `extract_emails` (app.py lines 12, 29-30)

`EMAIL_REGEX = [a-zA-Z0-9._%+-]+@[a-zA-Z0-9.-]+\.[a-zA-Z]{2,}` run with
`re.findall` (leftmost, non-overlapping, greedy with backtracking), the
matches collected into a Python `set`.  The local-part class excludes `@`,
so the greedy `+` never backtracks productively; the domain part backtracks
`[a-zA-Z0-9.-]+` from the longest run down until a literal `.` followed by
at least two letters fits. -/

/-- `[a-zA-Z0-9._%+-]` -/
def isLocalChar (c : Char) : Bool :=
  c.isAlpha || c.isDigit || c == '.' || c == '_' || c == '%' || c == '+' || c == '-'

/-- `[a-zA-Z0-9.-]` -/
def isDomChar (c : Char) : Bool :=
  c.isAlpha || c.isDigit || c == '.' || c == '-'

/-- Try the split of the maximal domain-character run `dom` at index `k`:
succeeds when `dom[k] = '.'`, `k ≥ 1` (nonempty `[a-zA-Z0-9.-]+`), and the
maximal letter run after the dot has length at least two.  Returns the
pre-dot part, the TLD, and the portion of `dom` left over after the match. -/
def domTry (dom : List Char) (k : Nat) : Option (List Char × List Char × List Char) :=
  if dom.get? k = some '.' ∧ 1 ≤ k then
    let tld := (dom.drop (k + 1)).takeWhile Char.isAlpha
    if 2 ≤ tld.length then
      some (dom.take k, tld, (dom.drop (k + 1)).dropWhile Char.isAlpha)
    else none
  else none

/-- Greedy backtracking of the domain `+`: try the dot position from the
right end of the maximal run downwards. -/
def domSearch (dom : List Char) : Nat → Option (List Char × List Char × List Char)
  | 0 => none
  | k + 1 =>
    match domTry dom (k + 1) with
    | some r => some r
    | none => domSearch dom k

/-- Attempt an email match anchored at the head of `s`; on success return
the matched text and the remainder of `s` after the match. -/
def tryEmail (s : List Char) : Option (List Char × List Char) :=
  let loc := s.takeWhile isLocalChar
  if loc = [] then none
  else
    match s.dropWhile isLocalChar with
    | '@' :: r2 =>
      let dom := r2.takeWhile isDomChar
      match domSearch dom (dom.length - 1) with
      | some (pre, tld, leftover) =>
        some (loc ++ '@' :: pre ++ '.' :: tld, leftover ++ r2.dropWhile isDomChar)
      | none => none
    | _ => none

/-- `re.findall` scanner for `EMAIL_REGEX`. -/
def findEmailsAux : Nat → List Char → List (List Char)
  | 0, _ => []
  | _ + 1, [] => []
  | fuel + 1, c :: cs =>
    match tryEmail (c :: cs) with
    | some (m, rest) => m :: findEmailsAux fuel rest
    | none => findEmailsAux fuel cs

/-- Deduplicate keeping first occurrences (canonical order for a Python
`set` built by insertion). -/
def dedupFirst {α : Type} [DecidableEq α] (l : List α) : List α :=
  l.foldl (fun acc e => if e ∈ acc then acc else acc ++ [e]) []

/-- `extract_emails` (app.py lines 29-30): the distinct `EMAIL_REGEX`
matches of the text. -/
def extract_emails (s : String) : List String :=
  dedupFirst ((findEmailsAux s.data.length s.data).map fun l => String.mk l)

/-- A matchable site for a `\s+TOK\s+` pattern: the token occurs with a
whitespace character on each side. -/
def badReq (tok s : List Char) : Prop :=
  ∃ w1 w2, isWs w1 = true ∧ isWs w2 = true ∧ occursIn (w1 :: (tok ++ [w2])) s

/-! ## `urllib.parse` collaborators

Embedded from CPython 3.11 `urllib/parse.py` (`urlsplit`, `_splitparams`,
`urlparse`, `urlunsplit`, `urlunparse`, `urljoin`).  `ValueError` (the
unmatched-bracket netloc check) becomes `none`.  The non-ASCII NFKC netloc
check of `_checknetloc` is not modelled (inputs of interest are ASCII). -/

/-- The five components of `urlsplit`. -/
structure SplitResult where
  scheme : List Char
  netloc : List Char
  path : List Char
  query : List Char
  fragment : List Char
deriving DecidableEq, Repr

/-- The six components of `urlparse` (path with `;params` split off). -/
structure ParseResult where
  scheme : List Char
  netloc : List Char
  path : List Char
  params : List Char
  query : List Char
  fragment : List Char
deriving DecidableEq, Repr

/-- `scheme_chars`: ASCII letters, digits, `+`, `-`, `.`. -/
def isSchemeChar (c : Char) : Bool :=
  c.isAlpha || c.isDigit || c == '+' || c == '-' || c == '.'

/-- `_UNSAFE_URL_BYTES_TO_REMOVE`: tab, carriage return, newline are removed
from the URL before parsing. -/
def removeUnsafe (l : List Char) : List Char :=
  l.filter fun c => !(c == '\t' || c == '\r' || c == '\n')

/-- A character the netloc is delimited by (`/`, `?`, `#`). -/
def notNetlocDelim (c : Char) : Bool := !(c == '/' || c == '?' || c == '#')

/-- `url.split(sep, 1)`: the part before the first occurrence of `c`, and
the part after it (empty when `c` does not occur). -/
def splitAtFirst (c : Char) (l : List Char) : List Char × List Char :=
  (l.takeWhile (fun a => !(a == c)), (l.dropWhile fun a => !(a == c)).tail)

/-- First character is an ASCII letter. -/
def headIsAlpha : List Char → Bool
  | [] => false
  | c :: _ => c.isAlpha

/-- The scheme-detection step of `urlsplit`: the scheme (the default when
none is found in the string) and the remainder of the URL. -/
def schemeSplit (url1 : List Char) (dflt1 : List Char) : List Char × List Char :=
  let pre := url1.takeWhile fun c => !(c == ':')
  if decide (pre.length < url1.length) && !pre.isEmpty && headIsAlpha pre &&
      pre.all isSchemeChar then
    (pre.map Char.toLower, url1.drop (pre.length + 1))
  else (dflt1, url1)

/-- The netloc-extraction step of `urlsplit` (`_splitnetloc` guarded by
the leading `//`). -/
def netlocSplit (rest0 : List Char) : List Char × List Char :=
  if rest0.take 2 == ['/', '/'] then
    ((rest0.drop 2).takeWhile notNetlocDelim, (rest0.drop 2).dropWhile notNetlocDelim)
  else ([], rest0)

/-- `urlsplit(url, scheme)` from CPython 3.11; `none` models the
`ValueError("Invalid IPv6 URL")` raise. -/
def urlsplitL (url0 : List Char) (dflt : List Char) : Option SplitResult :=
  let sr := schemeSplit (removeUnsafe url0) (removeUnsafe dflt)
  let nr := netlocSplit sr.2
  if (decide ('[' ∈ nr.1) != decide (']' ∈ nr.1)) then none
  else
    let pf := splitAtFirst '#' nr.2
    let pq := splitAtFirst '?' pf.1
    some ⟨sr.1, nr.1, pq.1, pq.2, pf.2⟩

/-- `uses_relative` (urllib.parse). -/
def uses_relative : List (List Char) :=
  ["", "ftp", "http", "gopher", "nntp", "imap", "wais", "file", "https", "shttp",
   "mms", "prospero", "rtsp", "rtspu", "sftp", "svn", "svn+ssh", "ws", "wss"].map String.data

/-- `uses_netloc` (urllib.parse). -/
def uses_netloc : List (List Char) :=
  ["", "ftp", "http", "gopher", "nntp", "telnet", "imap", "wais", "file", "mms",
   "https", "shttp", "snews", "prospero", "rtsp", "rtspu", "rsync", "svn",
   "svn+ssh", "sftp", "nfs", "git", "git+ssh", "ws", "wss"].map String.data

/-- `uses_params` (urllib.parse). -/
def uses_params : List (List Char) :=
  ["", "ftp", "hdl", "prospero", "http", "imap", "https", "shttp", "rtsp",
   "rtspu", "sip", "sips", "mms", "sftp", "tel"].map String.data

/-- `_splitparams`: split `;params` off the last path segment. -/
def splitParamsL (p : List Char) : List Char × List Char :=
  if '/' ∈ p then
    let lastSeg := (p.reverse.takeWhile fun c => !(c == '/')).reverse
    if ';' ∈ lastSeg then
      let ab := splitAtFirst ';' lastSeg
      (p.take (p.length - lastSeg.length) ++ ab.1, ab.2)
    else (p, [])
  else splitAtFirst ';' p

/-- `urlparse(url, scheme)`: `urlsplit` plus the params split for schemes in
`uses_params`. -/
def urlparseL (url : List Char) (dflt : List Char) : Option ParseResult :=
  match urlsplitL url dflt with
  | none => none
  | some r =>
    if r.scheme ∈ uses_params ∧ ';' ∈ r.path then
      let pp := splitParamsL r.path
      some ⟨r.scheme, r.netloc, pp.1, pp.2, r.query, r.fragment⟩
    else some ⟨r.scheme, r.netloc, r.path, [], r.query, r.fragment⟩

/-- `urlunsplit` from CPython 3.11. -/
def urlunsplitL (scheme netloc url query fragment : List Char) : List Char :=
  let u1 :=
    if netloc ≠ [] ∨ (scheme ≠ [] ∧ scheme ∈ uses_netloc ∧ url.take 2 ≠ ['/', '/']) then
      '/' :: '/' :: netloc ++ (if url ≠ [] ∧ url.take 1 ≠ ['/'] then '/' :: url else url)
    else url
  let u2 := if scheme ≠ [] then scheme ++ ':' :: u1 else u1
  let u3 := if query ≠ [] then u2 ++ '?' :: query else u2
  if fragment ≠ [] then u3 ++ '#' :: fragment else u3

/-- `urlunparse`: rejoin `;params` then `urlunsplit`. -/
def urlunparseL (scheme netloc url params query fragment : List Char) : List Char :=
  urlunsplitL scheme netloc (if params ≠ [] then url ++ ';' :: params else url) query fragment

/-- `str.split('/')`. -/
def splitSlash : List Char → List (List Char)
  | [] => [[]]
  | c :: rest =>
    let r := splitSlash rest
    if c == '/' then [] :: r else (c :: r.headD []) :: r.tail

/-- `segments[1:-1] = filter(None, segments[1:-1])`: drop empty segments,
keeping the first and last elements. -/
def filterMid (segs : List (List Char)) : List (List Char) :=
  match segs with
  | [] => []
  | [a] => [a]
  | a :: rest => a :: ((rest.dropLast.filter fun s => !s.isEmpty) ++ [rest.getLastD []])

/-- The dot-segment resolution loop of `urljoin` (`..` pops, `.` is
skipped, `IndexError` on popping an empty stack is ignored). -/
def resolveSegs (segs : List (List Char)) : List (List Char) :=
  segs.foldl
    (fun acc seg =>
      if seg = "..".data then acc.dropLast
      else if seg = ".".data then acc
      else acc ++ [seg]) []

/-- Resolve and rejoin the segment list (`'/'.join(resolved_path) or '/'`,
with the trailing-slash fix-up when the last segment is `.` or `..`). -/
def joinSegs (segs : List (List Char)) : List Char :=
  let r0 := resolveSegs segs
  let r1 := if segs.getLastD [] = ".".data ∨ segs.getLastD [] = "..".data then r0 ++ [[]] else r0
  let j := List.intercalate ['/'] r1
  if j = [] then ['/'] else j

/-- The relative-path merge of `urljoin` (CPython 3.11, RFC-3986 style). -/
def mergePathsL (bpath path : List Char) : List Char :=
  if path.take 1 = ['/'] then joinSegs (splitSlash path)
  else
    let baseParts0 := splitSlash bpath
    let baseParts := if baseParts0.getLastD [] ≠ [] then baseParts0.dropLast else baseParts0
    joinSegs (filterMid (baseParts ++ splitSlash path))

/-- `urljoin(base, url)` from CPython 3.11; `none` when either parse
raises. -/
def urljoinL (base url : List Char) : Option (List Char) :=
  if base = [] then some url
  else if url = [] then some base
  else
    match urlparseL base [] with
    | none => none
    | some b =>
      match urlparseL url b.scheme with
      | none => none
      | some u =>
        if u.scheme ≠ b.scheme ∨ u.scheme ∉ uses_relative then some url
        else if u.scheme ∈ uses_netloc ∧ u.netloc ≠ [] then
          some (urlunparseL u.scheme u.netloc u.path u.params u.query u.fragment)
        else
          let netloc := if u.scheme ∈ uses_netloc then b.netloc else u.netloc
          if u.path = [] ∧ u.params = [] then
            some (urlunparseL u.scheme netloc b.path b.params
              (if u.query = [] then b.query else u.query) u.fragment)
          else
            some (urlunparseL u.scheme netloc (mergePathsL b.path u.path)
              u.params u.query u.fragment)

/-- The canonicalization of app.py lines 63-64:
`parsed.scheme + "://" + parsed.netloc + parsed.path` after `urlparse`
(`none` when `urlparse` raises). -/
def clean_link (link : List Char) : Option (List Char) :=
  (urlparseL link []).map fun p => p.scheme ++ "://".data ++ p.netloc ++ p.path

/-- `resolve(href, base)` followed by canonicalization: `urljoin` then
`clean_link`, the pipeline of app.py lines 62-64. -/
def resolveClean (base href : String) : Option String :=
  ((urljoinL base.data href.data).bind clean_link).map String.mk

/-- `is_internal_link` (app.py lines 32-34); `none` models an exception
escaping from `urlparse`. -/
def is_internal_linkE (link : String) (base_domain : String) : Option Bool :=
  (urlparseL link.data []).map fun p =>
    p.netloc.isEmpty || p.netloc == base_domain.data

/-! ## `crawl_page` (app.py lines 38-70)

The HTTP layer is abstracted: a fetch either raises (`exn`: transport
error, timeout, TLS error, body-parse error) or yields a status code, the
final post-redirect URL and a parsed document.  The `title` field models
`soup.title`: `none` when no title element exists (line 46 falls back to
`"N/A"`), `some none` when the element exists but `.string` is `None`
(then `.strip()` raises `AttributeError`, caught by the page-level
`except`), `some (some s)` otherwise. -/

/-- A parsed page as seen by `crawl_page`. -/
structure Document where
  title : Option (Option String)
  text : String
  hrefs : List String
deriving Repr, DecidableEq

/-- Outcome of `session.get` plus parsing. -/
inductive HttpResult where
  | exn : HttpResult
  | ok (status : Nat) (finalUrl : String) (doc : Document) : HttpResult
deriving Repr, DecidableEq

/-- One record of `found_data` (app.py lines 54-58). -/
structure EmailItem where
  email : String
  pageUrl : String
  pageTitle : String
deriving Repr, DecidableEq

/-- Line 46: `soup.title.string.strip() if soup.title else "N/A"`;
`none` is the raising case. -/
def titleOf : Option (Option String) → Option String
  | none => some "N/A"
  | some none => none
  | some (some s) => some s.trim

/-- The link loop of lines 60-65; an exception from `urljoin` or
`urlparse` aborts the whole `try` block (`none`). -/
def collectLinks (finalUrl : String) : List String → Option (List String)
  | [] => some []
  | h :: rest =>
    match (urljoinL finalUrl.data h.data).bind clean_link with
    | none => none
    | some cl =>
      match collectLinks finalUrl rest with
      | none => none
      | some ls => some (String.mk cl :: ls)

/-- `crawl_page` (app.py lines 38-70): any exception anywhere in the `try`
block collapses to `([], [])`. -/
def crawl_page (r : HttpResult) : List EmailItem × List String :=
  match r with
  | .exn => ([], [])
  | .ok status finalUrl doc =>
    if status ≠ 200 then ([], [])
    else
      match titleOf doc.title with
      | none => ([], [])
      | some title =>
        let found := (extract_emails (normalize_text doc.text)).map
          fun e => EmailItem.mk e finalUrl title
        match collectLinks finalUrl doc.hrefs with
        | none => ([], [])
        | some links => (found, dedupFirst links)

/-! ## The thread-pool scheduler loop (app.py lines 90-189)

The loop is embedded as a state machine.  A `World` maps each URL to its
fetch outcome (the submitted job `crawl_page(url, session, timeout)` is a
pure function of the URL once the HTTP layer is fixed).  A schedule is a
list of completion batches: each loop iteration, `concurrent.futures.wait`
returns some nonempty subset of the pending futures, processed in some
order; both choices are adversarial, so `runLoop` takes the batch list as
input.  Batch entries not currently in `future_to_url` are skipped
(`done` is always a subset of the dict's keys in the Python, so skipping
only discards impossible schedule entries).  `submitLog` and `recordLog`
are ghost observation logs: `submitLog` records every `executor.submit`
call in order, `recordLog` every record handed to the aggregation code in
completion-processing order; neither influences the computation. -/

/-- Configuration for one crawl (start URL, `max_pages` slider,
`remove_duplicates` checkbox; worker count and timeout do not influence
the abstracted semantics). -/
structure CrawlConfig where
  startUrl : String
  maxPages : Nat
  removeDuplicates : Bool
deriving Repr, DecidableEq

/-- Scheduler state: `visited_urls`, the keys of `future_to_url` (a future
is identified by its URL, each URL being submitted at most once),
`pages_scanned`, `all_emails`, `seen_emails`, plus the two ghost logs. -/
structure CrawlState where
  visited : List String
  inflight : List String
  pagesScanned : Nat
  allEmails : List EmailItem
  seenEmails : List String
  submitLog : List String
  recordLog : List EmailItem
deriving Repr, DecidableEq

/-- The fetch outcome of every URL. -/
def World : Type := String → HttpResult

/-- One step of the dedup aggregation (app.py lines 147-154). -/
def dedupStep (p : List EmailItem × List String) (item : EmailItem) :
    List EmailItem × List String :=
  if item.email ∈ p.2 then p else (p.1 ++ [item], p.2 ++ [item.email])

/-- Aggregation of one completed job's records (app.py lines 145-159). -/
def addRecords (removeDuplicates : Bool) (data : List EmailItem) (st : CrawlState) :
    CrawlState :=
  if removeDuplicates then
    let p := data.foldl dedupStep (st.allEmails, st.seenEmails)
    { st with allEmails := p.1, seenEmails := p.2, recordLog := st.recordLog ++ data }
  else
    { st with allEmails := st.allEmails ++ data, recordLog := st.recordLog ++ data }

/-- The link-queueing loop (app.py lines 169-175): internal links not yet
visited are added to `visited_urls` and submitted, stopping early once
`len(visited_urls) >= max_pages`; an exception from `is_internal_link`
is caught by the outer `except` (line 176), aborting the loop. -/
def processLinks (maxPages : Nat) (baseDomain : String) :
    List String → CrawlState → CrawlState
  | [], st => st
  | link :: rest, st =>
    match is_internal_linkE link baseDomain with
    | none => st
    | some internal =>
      if internal ∧ link ∉ st.visited then
        let st2 : CrawlState :=
          { st with visited := st.visited ++ [link], inflight := st.inflight ++ [link],
                    submitLog := st.submitLog ++ [link] }
        if maxPages ≤ st2.visited.length then st2
        else processLinks maxPages baseDomain rest st2
      else processLinks maxPages baseDomain rest st

/-- Processing of one completed future (app.py lines 136-177): pop it,
increment `pages_scanned`, aggregate its records, and queue its links when
`pages_scanned + len(future_to_url) < max_pages`. -/
def processDone (cfg : CrawlConfig) (baseDomain : String) (w : World) (url : String)
    (st : CrawlState) : CrawlState :=
  if url ∈ st.inflight then
    let st1 : CrawlState :=
      { st with inflight := st.inflight.erase url, pagesScanned := st.pagesScanned + 1 }
    let dl := crawl_page (w url)
    let st2 := addRecords cfg.removeDuplicates dl.1 st1
    if st2.pagesScanned + st2.inflight.length < cfg.maxPages then
      processLinks cfg.maxPages baseDomain dl.2 st2
    else st2
  else st

/-- `for future in done:` — process a completion batch in order. -/
def processBatch (cfg : CrawlConfig) (baseDomain : String) (w : World) :
    List String → CrawlState → CrawlState
  | [], st => st
  | u :: rest, st => processBatch cfg baseDomain w rest (processDone cfg baseDomain w u st)

/-- The `while future_to_url and pages_scanned < max_pages` loop
(app.py lines 130-189), including the budget break that cancels the
remaining futures (their results are discarded). -/
def runLoop (cfg : CrawlConfig) (baseDomain : String) (w : World) :
    List (List String) → CrawlState → CrawlState
  | [], st => st
  | batch :: rest, st =>
    if st.inflight ≠ [] ∧ st.pagesScanned < cfg.maxPages then
      if cfg.maxPages ≤ (processBatch cfg baseDomain w batch st).pagesScanned then
        processBatch cfg baseDomain w batch st
      else runLoop cfg baseDomain w rest (processBatch cfg baseDomain w batch st)
    else st

/-- Lines 97-128: `visited_urls = set([start_url])` and the initial
submission of the start URL. -/
def initState (startUrl : String) : CrawlState :=
  ⟨[startUrl], [startUrl], 0, [], [], [startUrl], []⟩

/-- A whole crawl run.  `none` when the crawl never starts: empty start
URL (line 92 `st.stop()`) or `urlparse(start_url)` raising at line 97. -/
def runCrawl (cfg : CrawlConfig) (w : World) (sched : List (List String)) :
    Option CrawlState :=
  if cfg.startUrl = "" then none
  else
    match urlparseL cfg.startUrl.data [] with
    | none => none
    | some p => some (runLoop cfg (String.mk p.netloc) w sched (initState cfg.startUrl))

/-! ## Claim C5: counterexample -/

/-- The scheme, netloc and path components of a string's plain
`urlsplit`: two hrefs "differ only in query string and/or fragment"
exactly when these agree. -/
def snpOf (h : String) : Option (List Char × List Char × List Char) :=
  (urlsplitL h.data []).map fun p => (p.scheme, p.netloc, p.path)

/-- The "first completed discovery wins" dedup policy as a function of the
stream of records in completion-processing order. -/
def firstStep (acc : List EmailItem) (item : EmailItem) : List EmailItem :=
  if item.email ∈ acc.map EmailItem.email then acc else acc ++ [item]

/-- Keep, for each email value, the first record of the stream carrying it. -/
def firstRecordPerEmail (l : List EmailItem) : List EmailItem := l.foldl firstStep []

/-- The master invariant of the scheduler loop: every submitted URL is
popped-and-counted or in flight (`pagesScanned + |inflight| = |visited|`),
the visited set is bounded by the budget (by `1` when `maxPages = 0`),
is duplicate-free, equals the submission log, and — with dedup on — the
seen-set mirrors the stored records, which are the first-per-email
filtering of the full record stream. -/
def Inv (cfg : CrawlConfig) (st : CrawlState) : Prop :=
  st.pagesScanned + st.inflight.length = st.visited.length ∧
  st.visited.length ≤ max cfg.maxPages 1 ∧
  st.visited.Nodup ∧
  st.submitLog = st.visited ∧
  (cfg.removeDuplicates = true →
    st.seenEmails = st.allEmails.map EmailItem.email ∧
    st.allEmails = firstRecordPerEmail st.recordLog)

/-! ## Claim C5: the amended canonicalization theorem

Strategy: in every branch, `urljoin`'s result is `core ++ qfSuffix q f`
where `core` is built only from scheme/netloc/path/params data, and
re-parsing `core ++ qfSuffix q f` yields the same scheme, netloc and path
as re-parsing `core` alone — each parse phase stops at the leading `?` or
`#` of the suffix.  Hence two resolved hrefs agreeing on everything but
query and fragment canonicalize identically. -/

/-- The `?query#fragment` tail as appended by `urlunsplit`. -/
def qfSuffix (q f : List Char) : List Char :=
  (if q = [] then [] else '?' :: q) ++ (if f = [] then [] else '#' :: f)


/-! ## Idempotence of `normalize_text` (claim C3) -/

/-- A whitespace-only run is split off by `skipWs`. -/
theorem skipWs_decomp : ∀ s : List Char, ∃ p, (∀ c ∈ p, isWs c = true) ∧ s = p ++ skipWs s := by
  intro s
  induction s with
  | nil => exact ⟨[], by simp, rfl⟩
  | cons c cs ih =>
    by_cases hc : isWs c = true
    · obtain ⟨p, hp, hcs⟩ := ih
      refine ⟨c :: p, ?_, ?_⟩
      · intro a ha
        rcases List.mem_cons.mp ha with rfl | ha
        · exact hc
        · exact hp a ha
      · rw [show skipWs (c :: cs) = skipWs cs from by simp [skipWs, hc]]
        rw [List.cons_append, ← hcs]
    · refine ⟨[], by simp, ?_⟩
      rw [show skipWs (c :: cs) = c :: cs from by simp [skipWs, hc]]
      rfl

/-- `skipWs` is the identity when the head is not whitespace. -/
theorem skipWs_eq_self (c : Char) (cs : List Char) (hc : isWs c = false) :
    skipWs (c :: cs) = c :: cs := by
  simp [skipWs, hc]

/-- `List.isPrefixOf` gives a `startsWith` decomposition. -/
theorem isPrefixOf_startsWith :
    ∀ (t s : List Char), t.isPrefixOf s = true → startsWith t s := by
  intro t
  induction t with
  | nil => exact fun s _ => ⟨s, rfl⟩
  | cons a t' ih =>
    intro s h
    cases s with
    | nil =>
      rw [show (a :: t').isPrefixOf [] = false from rfl] at h
      exact absurd h (by decide)
    | cons b s' =>
      rw [show (a :: t').isPrefixOf (b :: s') = (a == b && t'.isPrefixOf s') from rfl,
        Bool.and_eq_true, beq_iff_eq] at h
      obtain ⟨v, hv⟩ := ih s' h.2
      exact ⟨v, by rw [h.1, List.cons_append, ← hv]⟩

/-- Conversely, a `startsWith` decomposition makes `List.isPrefixOf` true. -/
theorem startsWith_isPrefixOf :
    ∀ (t s : List Char), startsWith t s → t.isPrefixOf s = true := by
  intro t
  induction t with
  | nil => intro s _; cases s <;> rfl
  | cons a t' ih =>
    intro s h
    obtain ⟨v, hv⟩ := h
    rw [hv, List.cons_append,
      show (a :: t').isPrefixOf (a :: (t' ++ v)) = (a == a && t'.isPrefixOf (t' ++ v)) from rfl,
      Bool.and_eq_true, beq_iff_eq]
    exact ⟨rfl, ih (t' ++ v) ⟨v, rfl⟩⟩

/-- A successful `tryPat` consumes a nonempty chunk: the remainder is a
proper suffix of the input. -/
theorem tryPat_suffix (req : Bool) (tok s rest : List Char)
    (htok : tok ≠ []) (h : tryPat req tok s = some rest) :
    ∃ p, p ≠ [] ∧ s = p ++ rest := by
  cases req with
  | false =>
    rw [show tryPat false tok s =
      (if tok.isPrefixOf (skipWs s) then
        some (skipWs ((skipWs s).drop tok.length)) else none) from rfl] at h
    by_cases hpre : tok.isPrefixOf (skipWs s) = true
    · rw [if_pos hpre, Option.some_inj] at h
      obtain ⟨p1, hp1, hs1⟩ := skipWs_decomp s
      obtain ⟨w, hw⟩ := isPrefixOf_startsWith tok (skipWs s) hpre
      have hdrop : (skipWs s).drop tok.length = w := by
        rw [hw, List.drop_left]
      obtain ⟨p2, hp2, hw2⟩ := skipWs_decomp w
      refine ⟨p1 ++ tok ++ p2, ?_, ?_⟩
      · intro hcon
        rcases List.append_eq_nil.mp hcon with ⟨h1, _⟩
        exact htok (List.append_eq_nil.mp h1).2
      · rw [← h, hdrop, hs1, hw]
        conv_lhs => rw [hw2]
        simp [List.append_assoc]
    · rw [if_neg hpre] at h
      exact absurd h (by simp)
  | true =>
    cases s with
    | nil => exact absurd h (by rw [show tryPat true tok [] = none from rfl]; simp)
    | cons c cs =>
      rw [show tryPat true tok (c :: cs) =
        (if isWs c then
          (if tok.isPrefixOf (skipWs cs) then
            (match (skipWs cs).drop tok.length with
             | [] => none
             | d :: ds => if isWs d then some (skipWs ds) else none)
           else none)
         else none) from rfl] at h
      by_cases hwc : isWs c = true
      · rw [if_pos hwc] at h
        by_cases hpre : tok.isPrefixOf (skipWs cs) = true
        · rw [if_pos hpre] at h
          cases hdd : (skipWs cs).drop tok.length with
          | nil =>
            rw [hdd, show (match ([] : List Char) with
              | [] => (none : Option (List Char))
              | d :: ds => if isWs d then some (skipWs ds) else none) = none from rfl] at h
            exact absurd h (by simp)
          | cons d ds =>
            rw [hdd, show (match (d :: ds : List Char) with
              | [] => (none : Option (List Char))
              | d :: ds => if isWs d then some (skipWs ds) else none) =
                (if isWs d then some (skipWs ds) else none) from rfl] at h
            by_cases hwd : isWs d = true
            · rw [if_pos hwd, Option.some_inj] at h
              obtain ⟨p1, hp1, hcs⟩ := skipWs_decomp cs
              obtain ⟨w, hw⟩ := isPrefixOf_startsWith tok (skipWs cs) hpre
              have hzw : (skipWs cs).drop tok.length = w := by
                rw [hw, List.drop_left]
              have hwdds : w = d :: ds := by rw [← hzw, hdd]
              obtain ⟨p2, hp2, hds⟩ := skipWs_decomp ds
              refine ⟨c :: (p1 ++ tok ++ [d] ++ p2), by simp, ?_⟩
              rw [← h, hcs, hw, hwdds]
              conv_lhs => rw [hds]
              simp [List.append_assoc]
            · rw [if_neg hwd] at h
              exact absurd h (by simp)
        · rw [if_neg hpre] at h
          exact absurd h (by simp)
      · rw [if_neg hwc] at h
        exact absurd h (by simp)

/-- If no suffix of the input matches, the scanner is the identity. -/
theorem subPat_id (req : Bool) (tok : List Char) (rep : Char) :
    ∀ (fuel : Nat) (s : List Char),
      (∀ u v, s = u ++ v → tryPat req tok v = none) →
      subPat req tok rep fuel s = s := by
  intro fuel
  induction fuel with
  | zero => intro s _; rfl
  | succ f ih =>
    intro s h
    cases s with
    | nil => rfl
    | cons c cs =>
      have hnone := h [] (c :: cs) rfl
      simp only [subPat, hnone]
      have := ih cs fun u v hv => h (c :: u) v (by rw [hv]; rfl)
      rw [this]

/-- Prefix reflection: a nonempty replacement-free word that starts the
scanner output also starts the input. -/
theorem subPat_startsWith_reflect (req : Bool) (tok : List Char) (rep : Char) :
    ∀ (fuel : Nat) (s t : List Char), t ≠ [] → rep ∉ t →
      startsWith t (subPat req tok rep fuel s) → startsWith t s := by
  intro fuel
  induction fuel with
  | zero => intro s t _ _ h; exact h
  | succ f ih =>
    intro s t htne hrep h
    cases s with
    | nil =>
      obtain ⟨v, hv⟩ := h
      cases t with
      | nil => exact absurd rfl htne
      | cons a t' => simp [subPat] at hv
    | cons c cs =>
      cases htry : tryPat req tok (c :: cs) with
      | some rest =>
        rw [show subPat req tok rep (f + 1) (c :: cs) =
          rep :: subPat req tok rep f rest from by simp [subPat, htry]] at h
        obtain ⟨v, hv⟩ := h
        cases t with
        | nil => exact absurd rfl htne
        | cons a t' =>
          rw [List.cons_append] at hv
          injection hv with h1 _
          exact absurd (h1 ▸ List.mem_cons_self a t') hrep
      | none =>
        rw [show subPat req tok rep (f + 1) (c :: cs) =
          c :: subPat req tok rep f cs from by simp [subPat, htry]] at h
        obtain ⟨v, hv⟩ := h
        cases t with
        | nil => exact absurd rfl htne
        | cons a t' =>
          rw [List.cons_append] at hv
          injection hv with h1 h2
          by_cases ht' : t' = []
          · exact ⟨cs, by rw [ht', h1]; rfl⟩
          · obtain ⟨w, hw⟩ := ih cs t' ht'
              (fun hm => hrep (List.mem_cons_of_mem a hm)) ⟨v, h2⟩
            exact ⟨w, by rw [h1, hw, List.cons_append]⟩

/-- Extending to the right and to the left preserves `occursIn`. -/
theorem occursIn_mono (t u v : List Char) (h : occursIn t v) : occursIn t (u ++ v) := by
  obtain ⟨a, b, hab⟩ := h
  exact ⟨u ++ a, b, by rw [hab]; simp [List.append_assoc]⟩

theorem occursIn_cons (t : List Char) (c : Char) (s : List Char)
    (h : occursIn t s) : occursIn t (c :: s) :=
  occursIn_mono t [c] s h

theorem startsWith_occursIn (t s : List Char) (h : startsWith t s) : occursIn t s := by
  obtain ⟨v, hv⟩ := h
  exact ⟨[], v, hv⟩

/-- Decompose an occurrence in a cons. -/
theorem occursIn_cons_elim (t : List Char) (c : Char) (s : List Char)
    (h : occursIn t (c :: s)) : startsWith t (c :: s) ∨ occursIn t s := by
  obtain ⟨u, v, huv⟩ := h
  cases u with
  | nil => exact Or.inl ⟨v, by simpa using huv⟩
  | cons a u' =>
    rw [List.append_assoc, List.cons_append] at huv
    injection huv with _ h2
    exact Or.inr ⟨u', v, by rw [h2, List.append_assoc]⟩

theorem startsWith_cons_elim (h0 : Char) (ht : List Char) (c : Char) (s : List Char)
    (h : startsWith (h0 :: ht) (c :: s)) : h0 = c ∧ startsWith ht s := by
  obtain ⟨v, hv⟩ := h
  rw [List.cons_append] at hv
  injection hv with h1 h2
  exact ⟨h1.symm, ⟨v, h2⟩⟩

/-- Occurrence reflection: a nonempty replacement-free word occurring in the
scanner output already occurs in the input. -/
theorem subPat_occursIn_reflect (req : Bool) (tok : List Char) (rep : Char)
    (htok : tok ≠ []) :
    ∀ (fuel : Nat) (s t : List Char), t ≠ [] → rep ∉ t →
      occursIn t (subPat req tok rep fuel s) → occursIn t s := by
  intro fuel
  induction fuel with
  | zero => intro s t _ _ h; exact h
  | succ f ih =>
    intro s t htne hrep h
    cases s with
    | nil =>
      cases t with
      | nil => exact absurd rfl htne
      | cons a t' =>
        obtain ⟨u, v, huv⟩ := h
        rw [show subPat req tok rep (f + 1) [] = [] from rfl] at huv
        exact absurd huv.symm (by simp)
    | cons c cs =>
      cases htry : tryPat req tok (c :: cs) with
      | some rest =>
        rw [show subPat req tok rep (f + 1) (c :: cs) =
          rep :: subPat req tok rep f rest from by simp [subPat, htry]] at h
        rcases occursIn_cons_elim t rep (subPat req tok rep f rest) h with hsw | hocc
        · cases t with
          | nil => exact absurd rfl htne
          | cons a t' =>
            obtain ⟨ha, _⟩ := startsWith_cons_elim a t' rep (subPat req tok rep f rest) hsw
            exact absurd (ha ▸ List.mem_cons_self a t') hrep
        · obtain ⟨p, _, hp⟩ := tryPat_suffix req tok (c :: cs) rest htok htry
          rw [hp]
          exact occursIn_mono t p rest (ih rest t htne hrep hocc)
      | none =>
        rw [show subPat req tok rep (f + 1) (c :: cs) =
          c :: subPat req tok rep f cs from by simp [subPat, htry]] at h
        rcases occursIn_cons_elim t c (subPat req tok rep f cs) h with hsw | hocc
        · cases t with
          | nil => exact absurd rfl htne
          | cons a t' =>
            obtain ⟨ha, hsw'⟩ := startsWith_cons_elim a t' c (subPat req tok rep f cs) hsw
            by_cases ht' : t' = []
            · exact startsWith_occursIn _ _ ⟨cs, by rw [ht', ha]; rfl⟩
            · have := subPat_startsWith_reflect req tok rep f cs t' ht'
                (fun hm => hrep (List.mem_cons_of_mem a hm)) hsw'
              obtain ⟨w, hw⟩ := this
              exact startsWith_occursIn _ _ ⟨w, by rw [ha, hw, List.cons_append]⟩
        · exact occursIn_cons t c cs (ih cs t htne hrep hocc)

/-- Every character the scanner emits is an input character or the
replacement. -/
theorem subPat_mem (req : Bool) (tok : List Char) (rep : Char) (htok : tok ≠ []) :
    ∀ (fuel : Nat) (s : List Char) (c : Char),
      c ∈ subPat req tok rep fuel s → c ∈ s ∨ c = rep := by
  intro fuel
  induction fuel with
  | zero => intro s c h; exact Or.inl h
  | succ f ih =>
    intro s c h
    cases s with
    | nil => exact Or.inl h
    | cons c0 cs =>
      cases htry : tryPat req tok (c0 :: cs) with
      | some rest =>
        rw [show subPat req tok rep (f + 1) (c0 :: cs) =
          rep :: subPat req tok rep f rest from by simp [subPat, htry]] at h
        rcases List.mem_cons.mp h with rfl | hm
        · exact Or.inr rfl
        · rcases ih rest c hm with hin | hrep
          · obtain ⟨p, _, hp⟩ := tryPat_suffix req tok (c0 :: cs) rest htok htry
            exact Or.inl (by rw [hp]; exact List.mem_append_right p hin)
          · exact Or.inr hrep
      | none =>
        rw [show subPat req tok rep (f + 1) (c0 :: cs) =
          c0 :: subPat req tok rep f cs from by simp [subPat, htry]] at h
        rcases List.mem_cons.mp h with rfl | hm
        · exact Or.inl (List.mem_cons_self _ _)
        · rcases ih cs c hm with hin | hrep
          · exact Or.inl (List.mem_cons_of_mem c0 hin)
          · exact Or.inr hrep

theorem badReq_mono (tok u v : List Char) (h : badReq tok v) : badReq tok (u ++ v) := by
  obtain ⟨w1, w2, hw1, hw2, hocc⟩ := h
  exact ⟨w1, w2, hw1, hw2, occursIn_mono _ u v hocc⟩

/-- A successful optional-whitespace match means the token occurs. -/
theorem tryPat_false_bad (tok s rest : List Char)
    (h : tryPat false tok s = some rest) : occursIn tok s := by
  rw [show tryPat false tok s =
    (if tok.isPrefixOf (skipWs s) then
      some (skipWs ((skipWs s).drop tok.length)) else none) from rfl] at h
  by_cases hpre : tok.isPrefixOf (skipWs s) = true
  · obtain ⟨p, hp, hs⟩ := skipWs_decomp s
    obtain ⟨w, hw⟩ := isPrefixOf_startsWith tok (skipWs s) hpre
    exact ⟨p, w, by rw [hs, hw, List.append_assoc]⟩
  · rw [if_neg hpre] at h
    exact absurd h (by simp)

/-- A successful required-whitespace match means the token occurs with
whitespace on both sides. -/
theorem tryPat_true_bad (tok s rest : List Char)
    (h : tryPat true tok s = some rest) : badReq tok s := by
  cases s with
  | nil => exact absurd h (by rw [show tryPat true tok [] = none from rfl]; simp)
  | cons c cs =>
    rw [show tryPat true tok (c :: cs) =
      (if isWs c then
        (if tok.isPrefixOf (skipWs cs) then
          (match (skipWs cs).drop tok.length with
           | [] => none
           | d :: ds => if isWs d then some (skipWs ds) else none)
         else none)
       else none) from rfl] at h
    by_cases hwc : isWs c = true
    · rw [if_pos hwc] at h
      by_cases hpre : tok.isPrefixOf (skipWs cs) = true
      · rw [if_pos hpre] at h
        cases hdd : (skipWs cs).drop tok.length with
        | nil =>
          rw [hdd, show (match ([] : List Char) with
            | [] => (none : Option (List Char))
            | d :: ds => if isWs d then some (skipWs ds) else none) = none from rfl] at h
          exact absurd h (by simp)
        | cons d ds =>
          rw [hdd, show (match (d :: ds : List Char) with
            | [] => (none : Option (List Char))
            | d :: ds => if isWs d then some (skipWs ds) else none) =
              (if isWs d then some (skipWs ds) else none) from rfl] at h
          by_cases hwd : isWs d = true
          · obtain ⟨p, hp, hcs⟩ := skipWs_decomp cs
            obtain ⟨w, hw⟩ := isPrefixOf_startsWith tok (skipWs cs) hpre
            have hwdds : w = d :: ds := by
              rw [← hdd, hw, List.drop_left]
            rcases List.eq_nil_or_concat p with rfl | ⟨q, z, rfl⟩
            · refine ⟨c, d, hwc, hwd, [], ds, ?_⟩
              rw [List.nil_append] at hcs
              rw [hcs, hw, hwdds]
              simp [List.append_assoc]
            · refine ⟨z, d, hp z (by simp), hwd, c :: q, ds, ?_⟩
              rw [hcs, hw, hwdds]
              simp [List.append_assoc]
          · rw [if_neg hwd] at h
            exact absurd h (by simp)
      · rw [if_neg hpre] at h
        exact absurd h (by simp)
    · rw [if_neg hwc] at h
      exact absurd h (by simp)

/-- When the token never occurs, the optional-whitespace rewrite is the
identity. -/
theorem applyPat_id_false (tok : List Char) (rep : Char) (s : List Char)
    (h : ¬ occursIn tok s) : applyPat false tok rep s = s := by
  unfold applyPat
  apply subPat_id
  intro u v huv
  cases htry : tryPat false tok v with
  | none => rfl
  | some rest =>
    exact absurd (by rw [huv]; exact occursIn_mono tok u v (tryPat_false_bad tok v rest htry)) h

/-- When no whitespace-surrounded token occurs, the required-whitespace
rewrite is the identity. -/
theorem applyPat_id_true (tok : List Char) (rep : Char) (s : List Char)
    (h : ¬ badReq tok s) : applyPat true tok rep s = s := by
  unfold applyPat
  apply subPat_id
  intro u v huv
  cases htry : tryPat true tok v with
  | none => rfl
  | some rest =>
    exact absurd (by rw [huv]; exact badReq_mono tok u v (tryPat_true_bad tok v rest htry)) h

/-- The optional-whitespace pass leaves no occurrence of its own token,
given enough fuel. -/
theorem subPat_no_false (tok : List Char) (rep : Char) (h0 : Char) (t0 : List Char)
    (htok : tok = h0 :: t0) (hh0 : isWs h0 = false) (hrep : rep ∉ tok) :
    ∀ (fuel : Nat) (s : List Char), s.length ≤ fuel →
      ¬ occursIn tok (subPat false tok rep fuel s) := by
  intro fuel
  induction fuel with
  | zero =>
    intro s hs h
    rw [List.length_eq_zero.mp (Nat.le_zero.mp hs)] at h
    obtain ⟨u, v, huv⟩ := h
    rw [show subPat false tok rep 0 [] = [] from rfl, htok] at huv
    exact absurd huv.symm (by simp)
  | succ f ih =>
    intro s hs h
    cases s with
    | nil =>
      obtain ⟨u, v, huv⟩ := h
      rw [show subPat false tok rep (f + 1) [] = [] from rfl, htok] at huv
      exact absurd huv.symm (by simp)
    | cons c cs =>
      cases htry : tryPat false tok (c :: cs) with
      | some rest =>
        rw [show subPat false tok rep (f + 1) (c :: cs) =
          rep :: subPat false tok rep f rest from by simp [subPat, htry]] at h
        rcases occursIn_cons_elim tok rep _ h with hsw | hocc
        · rw [htok] at hsw
          obtain ⟨ha, _⟩ := startsWith_cons_elim h0 t0 rep _ hsw
          exact hrep (by rw [htok, ← ha]; exact List.mem_cons_self _ _)
        · obtain ⟨p, hpne, hp⟩ := tryPat_suffix false tok (c :: cs) rest
            (by rw [htok]; simp) htry
          have hlen : rest.length ≤ f := by
            have := congrArg List.length hp
            simp only [List.length_cons, List.length_append] at this
            have hple : 1 ≤ p.length := by
              cases p with
              | nil => exact absurd rfl hpne
              | cons _ _ => simp
            have hs2 : cs.length + 1 ≤ f + 1 := by simpa using hs
            omega
          exact ih rest hlen hocc
      | none =>
        rw [show subPat false tok rep (f + 1) (c :: cs) =
          c :: subPat false tok rep f cs from by simp [subPat, htry]] at h
        rcases occursIn_cons_elim tok c _ h with hsw | hocc
        · rw [htok] at hsw
          obtain ⟨ha, hsw'⟩ := startsWith_cons_elim h0 t0 c _ hsw
          have hst : startsWith tok (c :: cs) := by
            by_cases ht0 : t0 = []
            · exact ⟨cs, by rw [htok, ht0, ha]; rfl⟩
            · obtain ⟨w, hw⟩ := subPat_startsWith_reflect false (h0 :: t0) rep f cs t0 ht0
                (fun hm => hrep (by rw [htok]; exact List.mem_cons_of_mem h0 hm)) hsw'
              exact ⟨w, by rw [htok, ha, hw, List.cons_append]⟩
          have : tryPat false tok (c :: cs) ≠ none := by
            rw [show tryPat false tok (c :: cs) =
              (if tok.isPrefixOf (skipWs (c :: cs)) then
                some (skipWs ((skipWs (c :: cs)).drop tok.length)) else none) from rfl]
            rw [skipWs_eq_self c cs (by rw [← ha]; exact hh0),
              if_pos (startsWith_isPrefixOf tok (c :: cs) hst)]
            simp
          exact this htry
        · exact ih cs (by simpa using hs) hocc

/-- The required-whitespace pass leaves no whitespace-surrounded occurrence
of its own token, given enough fuel. -/
theorem subPat_no_true (tok : List Char) (rep : Char) (h0 : Char) (t0 : List Char)
    (htok : tok = h0 :: t0) (hh0 : isWs h0 = false) (hrep : rep ∉ tok)
    (hrepws : isWs rep = false) :
    ∀ (fuel : Nat) (s : List Char), s.length ≤ fuel →
      ¬ badReq tok (subPat true tok rep fuel s) := by
  intro fuel
  induction fuel with
  | zero =>
    intro s hs h
    rw [List.length_eq_zero.mp (Nat.le_zero.mp hs)] at h
    obtain ⟨w1, w2, _, _, u, v, huv⟩ := h
    rw [show subPat true tok rep 0 [] = [] from rfl] at huv
    exact absurd huv.symm (by simp)
  | succ f ih =>
    intro s hs h
    cases s with
    | nil =>
      obtain ⟨w1, w2, _, _, u, v, huv⟩ := h
      rw [show subPat true tok rep (f + 1) [] = [] from rfl] at huv
      exact absurd huv.symm (by simp)
    | cons c cs =>
      cases htry : tryPat true tok (c :: cs) with
      | some rest =>
        rw [show subPat true tok rep (f + 1) (c :: cs) =
          rep :: subPat true tok rep f rest from by simp [subPat, htry]] at h
        obtain ⟨w1, w2, hw1, hw2, hocc⟩ := h
        rcases occursIn_cons_elim _ rep _ hocc with hsw | hocc'
        · obtain ⟨ha, _⟩ := startsWith_cons_elim w1 (tok ++ [w2]) rep _ hsw
          rw [← ha] at hrepws
          rw [hw1] at hrepws
          exact absurd hrepws (by simp)
        · obtain ⟨p, hpne, hp⟩ := tryPat_suffix true tok (c :: cs) rest
            (by rw [htok]; simp) htry
          have hlen : rest.length ≤ f := by
            have := congrArg List.length hp
            simp only [List.length_cons, List.length_append] at this
            have hple : 1 ≤ p.length := by
              cases p with
              | nil => exact absurd rfl hpne
              | cons _ _ => simp
            have hs2 : cs.length + 1 ≤ f + 1 := by simpa using hs
            omega
          exact ih rest hlen ⟨w1, w2, hw1, hw2, hocc'⟩
      | none =>
        rw [show subPat true tok rep (f + 1) (c :: cs) =
          c :: subPat true tok rep f cs from by simp [subPat, htry]] at h
        obtain ⟨w1, w2, hw1, hw2, hocc⟩ := h
        rcases occursIn_cons_elim _ c _ hocc with hsw | hocc'
        · obtain ⟨ha, hsw'⟩ := startsWith_cons_elim w1 (tok ++ [w2]) c _ hsw
          have hword : startsWith (tok ++ [w2]) cs := by
            apply subPat_startsWith_reflect true tok rep f cs (tok ++ [w2])
              (by rw [htok]; simp)
              (by
                intro hm
                rcases List.mem_append.mp hm with hm1 | hm2
                · exact hrep hm1
                · rw [List.mem_singleton.mp hm2] at hrepws
                  rw [hw2] at hrepws
                  exact absurd hrepws (by simp))
              hsw'
          obtain ⟨v', hv'⟩ := hword
          rw [List.append_assoc] at hv'
          have : tryPat true tok (c :: cs) ≠ none := by
            rw [show tryPat true tok (c :: cs) =
              (if isWs c then
                (if tok.isPrefixOf (skipWs cs) then
                  (match (skipWs cs).drop tok.length with
                   | [] => none
                   | d :: ds => if isWs d then some (skipWs ds) else none)
                 else none)
               else none) from rfl]
            rw [if_pos (by rw [← ha]; exact hw1)]
            have hskip : skipWs cs = cs := by
              rw [hv', htok]
              rw [List.cons_append]
              exact skipWs_eq_self h0 (t0 ++ ([w2] ++ v')) hh0
            rw [hskip, if_pos (startsWith_isPrefixOf tok cs ⟨[w2] ++ v', hv'⟩)]
            rw [show cs.drop tok.length = [w2] ++ v' from by rw [hv', List.drop_left]]
            rw [show ([w2] ++ v' : List Char) = w2 :: v' from rfl]
            rw [show (match (w2 :: v' : List Char) with
              | [] => (none : Option (List Char))
              | d :: ds => if isWs d then some (skipWs ds) else none) =
                (if isWs w2 then some (skipWs v') else none) from rfl]
            rw [if_pos hw2]
            simp
          exact this htry
        · exact ih cs (by simpa using hs) ⟨w1, w2, hw1, hw2, hocc'⟩

/-- Rewrites with another pattern preserve absence of a replacement-free
token. -/
theorem applyPat_pres_occursIn (req : Bool) (tok : List Char) (rep : Char)
    (htok : tok ≠ []) (t : List Char) (htne : t ≠ []) (hrep : rep ∉ t)
    (s : List Char) (h : ¬ occursIn t s) : ¬ occursIn t (applyPat req tok rep s) :=
  fun hc => h (subPat_occursIn_reflect req tok rep htok s.length s t htne hrep hc)

/-- Rewrites with another pattern preserve absence of a whitespace-flanked
token, when the replacement is not whitespace. -/
theorem applyPat_pres_badReq (req : Bool) (tok : List Char) (rep : Char)
    (htok : tok ≠ []) (t : List Char) (hrep : rep ∉ t) (hrepws : isWs rep = false)
    (s : List Char) (h : ¬ badReq t s) : ¬ badReq t (applyPat req tok rep s) := by
  rintro ⟨w1, w2, hw1, hw2, hocc⟩
  refine h ⟨w1, w2, hw1, hw2, ?_⟩
  apply subPat_occursIn_reflect req tok rep htok s.length s _ (by simp) _ hocc
  intro hm
  rcases List.mem_cons.mp hm with rfl | hm2
  · rw [hw1] at hrepws
    exact absurd hrepws (by simp)
  · rcases List.mem_append.mp hm2 with hm3 | hm4
    · exact hrep hm3
    · rw [List.mem_singleton.mp hm4] at hrepws
      rw [hw2] at hrepws
      exact absurd hrepws (by simp)

/-- Own-pass completeness, `\s*TOK\s*` form. -/
theorem applyPat_no_false (tok : List Char) (rep : Char) (h0 : Char) (t0 : List Char)
    (htok : tok = h0 :: t0) (hh0 : isWs h0 = false) (hrep : rep ∉ tok)
    (s : List Char) : ¬ occursIn tok (applyPat false tok rep s) :=
  subPat_no_false tok rep h0 t0 htok hh0 hrep s.length s (Nat.le_refl _)

/-- Own-pass completeness, `\s+TOK\s+` form. -/
theorem applyPat_no_true (tok : List Char) (rep : Char) (h0 : Char) (t0 : List Char)
    (htok : tok = h0 :: t0) (hh0 : isWs h0 = false) (hrep : rep ∉ tok)
    (hrepws : isWs rep = false) (s : List Char) :
    ¬ badReq tok (applyPat true tok rep s) :=
  subPat_no_true tok rep h0 t0 htok hh0 hrep hrepws s.length s (Nat.le_refl _)

/-- `Char.toLower` is idempotent. -/
theorem toLower_idem (c : Char) : Char.toLower (Char.toLower c) = Char.toLower c := by
  unfold Char.toLower
  simp only []
  by_cases h : c.toNat ≥ 65 ∧ c.toNat ≤ 90
  · rw [if_pos h, if_neg]
    have hval : (Char.toNat c + 32).isValidChar := Or.inl (by omega)
    rw [Char.ofNat, dif_pos hval]
    have hv : (Char.ofNatAux (Char.toNat c + 32) hval).toNat = Char.toNat c + 32 := by
      simp [Char.ofNatAux, Char.toNat, UInt32.toNat, BitVec.toNat_ofNatLt]
    omega
  · rw [if_neg h, if_neg h]

theorem map_fix {f : Char → Char} :
    ∀ l : List Char, (∀ c ∈ l, f c = c) → l.map f = l := by
  intro l
  induction l with
  | nil => intro _; rfl
  | cons c cs ih =>
    intro h
    rw [List.map_cons, h c (List.mem_cons_self _ _),
      ih fun a ha => h a (List.mem_cons_of_mem c ha)]

/-- The pattern pipeline, unfolded. -/
theorem normalizeList_eq (x : List Char) :
    normalizeList x =
      applyPat true "dot".data '.'
        (applyPat false "(dot)".data '.'
          (applyPat false "[dot]".data '.'
            (applyPat true "at".data '@'
              (applyPat false "(at)".data '@'
                (applyPat false "[at]".data '@' (x.map Char.toLower)))))) := rfl

/-- Every character of a normalized text is a lowercased input character or
a replacement character. -/
theorem normalizeList_mem (x : List Char) (c : Char) (h : c ∈ normalizeList x) :
    c ∈ x.map Char.toLower ∨ c = '@' ∨ c = '.' := by
  rw [normalizeList_eq] at h
  unfold applyPat at h
  rcases subPat_mem true "dot".data '.' (by decide) _ _ c h with h5 | rfl
  case inr => exact Or.inr (Or.inr rfl)
  rcases subPat_mem false "(dot)".data '.' (by decide) _ _ c h5 with h4 | rfl
  case inr => exact Or.inr (Or.inr rfl)
  rcases subPat_mem false "[dot]".data '.' (by decide) _ _ c h4 with h3 | rfl
  case inr => exact Or.inr (Or.inr rfl)
  rcases subPat_mem true "at".data '@' (by decide) _ _ c h3 with h2 | rfl
  case inr => exact Or.inr (Or.inl rfl)
  rcases subPat_mem false "(at)".data '@' (by decide) _ _ c h2 with h1 | rfl
  case inr => exact Or.inr (Or.inl rfl)
  rcases subPat_mem false "[at]".data '@' (by decide) _ _ c h1 with h0 | rfl
  case inr => exact Or.inr (Or.inl rfl)
  exact Or.inl h0

/-- Lowercasing is the identity on normalized text. -/
theorem normalizeList_lower_fix (x : List Char) :
    (normalizeList x).map Char.toLower = normalizeList x := by
  apply map_fix
  intro c hc
  rcases normalizeList_mem x c hc with hm | rfl | rfl
  · obtain ⟨a, _, rfl⟩ := List.mem_map.mp hm
    exact toLower_idem a
  · decide
  · decide

/-- No `[at]` occurrence survives normalization. -/
theorem normalizeList_no_bad1 (x : List Char) :
    ¬ occursIn "[at]".data (normalizeList x) := by
  rw [normalizeList_eq]
  apply applyPat_pres_occursIn true "dot".data '.' (by decide) _ (by decide) (by decide)
  apply applyPat_pres_occursIn false "(dot)".data '.' (by decide) _ (by decide) (by decide)
  apply applyPat_pres_occursIn false "[dot]".data '.' (by decide) _ (by decide) (by decide)
  apply applyPat_pres_occursIn true "at".data '@' (by decide) _ (by decide) (by decide)
  apply applyPat_pres_occursIn false "(at)".data '@' (by decide) _ (by decide) (by decide)
  exact applyPat_no_false "[at]".data '@' '[' "at]".data (by decide) (by decide) (by decide) _

/-- No `(at)` occurrence survives normalization. -/
theorem normalizeList_no_bad2 (x : List Char) :
    ¬ occursIn "(at)".data (normalizeList x) := by
  rw [normalizeList_eq]
  apply applyPat_pres_occursIn true "dot".data '.' (by decide) _ (by decide) (by decide)
  apply applyPat_pres_occursIn false "(dot)".data '.' (by decide) _ (by decide) (by decide)
  apply applyPat_pres_occursIn false "[dot]".data '.' (by decide) _ (by decide) (by decide)
  apply applyPat_pres_occursIn true "at".data '@' (by decide) _ (by decide) (by decide)
  exact applyPat_no_false "(at)".data '@' '(' "at)".data (by decide) (by decide) (by decide) _

/-- No whitespace-flanked `at` survives normalization. -/
theorem normalizeList_no_bad3 (x : List Char) :
    ¬ badReq "at".data (normalizeList x) := by
  rw [normalizeList_eq]
  apply applyPat_pres_badReq true "dot".data '.' (by decide) _ (by decide) (by decide)
  apply applyPat_pres_badReq false "(dot)".data '.' (by decide) _ (by decide) (by decide)
  apply applyPat_pres_badReq false "[dot]".data '.' (by decide) _ (by decide) (by decide)
  exact applyPat_no_true "at".data '@' 'a' "t".data (by decide) (by decide) (by decide)
    (by decide) _

/-- No `[dot]` occurrence survives normalization. -/
theorem normalizeList_no_bad4 (x : List Char) :
    ¬ occursIn "[dot]".data (normalizeList x) := by
  rw [normalizeList_eq]
  apply applyPat_pres_occursIn true "dot".data '.' (by decide) _ (by decide) (by decide)
  apply applyPat_pres_occursIn false "(dot)".data '.' (by decide) _ (by decide) (by decide)
  exact applyPat_no_false "[dot]".data '.' '[' "dot]".data (by decide) (by decide) (by decide) _

/-- No `(dot)` occurrence survives normalization. -/
theorem normalizeList_no_bad5 (x : List Char) :
    ¬ occursIn "(dot)".data (normalizeList x) := by
  rw [normalizeList_eq]
  apply applyPat_pres_occursIn true "dot".data '.' (by decide) _ (by decide) (by decide)
  exact applyPat_no_false "(dot)".data '.' '(' "dot)".data (by decide) (by decide) (by decide) _

/-- No whitespace-flanked `dot` survives normalization. -/
theorem normalizeList_no_bad6 (x : List Char) :
    ¬ badReq "dot".data (normalizeList x) := by
  rw [normalizeList_eq]
  exact applyPat_no_true "dot".data '.' 'd' "ot".data (by decide) (by decide) (by decide)
    (by decide) _

/-- List-level idempotence of normalization. -/
theorem normalize_idem_list (x : List Char) :
    normalizeList (normalizeList x) = normalizeList x := by
  rw [normalizeList_eq (normalizeList x), normalizeList_lower_fix,
    applyPat_id_false "[at]".data '@' _ (normalizeList_no_bad1 x),
    applyPat_id_false "(at)".data '@' _ (normalizeList_no_bad2 x),
    applyPat_id_true "at".data '@' _ (normalizeList_no_bad3 x),
    applyPat_id_false "[dot]".data '.' _ (normalizeList_no_bad4 x),
    applyPat_id_false "(dot)".data '.' _ (normalizeList_no_bad5 x),
    applyPat_id_true "dot".data '.' _ (normalizeList_no_bad6 x)]

/-- C3: text normalization is idempotent — lowercasing followed by the six
obfuscation rewrites applied in sequence is a fixed point on its own
output, for every input string. -/
theorem C3_normalize_idempotent (t : String) :
    normalize_text (normalize_text t) = normalize_text t := by
  unfold normalize_text
  exact congrArg String.mk (normalize_idem_list t.data)

/-! ## Helper lemmas: fields untouched by the step functions -/

theorem addRecords_fields (b : Bool) (d : List EmailItem) (st : CrawlState) :
    (addRecords b d st).pagesScanned = st.pagesScanned ∧
    (addRecords b d st).inflight = st.inflight ∧
    (addRecords b d st).visited = st.visited ∧
    (addRecords b d st).submitLog = st.submitLog := by
  unfold addRecords; split <;> exact ⟨rfl, rfl, rfl, rfl⟩

set_option maxHeartbeats 2000000 in
theorem processLinks_fields (m : Nat) (bd : String) (links : List String) (st : CrawlState) :
    (processLinks m bd links st).pagesScanned = st.pagesScanned ∧
    (processLinks m bd links st).allEmails = st.allEmails ∧
    (processLinks m bd links st).seenEmails = st.seenEmails ∧
    (processLinks m bd links st).recordLog = st.recordLog := by
  induction links generalizing st with
  | nil => exact ⟨rfl, rfl, rfl, rfl⟩
  | cons l rest ih =>
    simp only [processLinks]
    split
    · exact ⟨rfl, rfl, rfl, rfl⟩
    · split
      · split
        · exact ⟨rfl, rfl, rfl, rfl⟩
        · exact ih _
      · exact ih _

/-- If some href of the page fails to resolve, the whole link loop raises. -/
theorem collectLinks_eq_none (fu : String) (h : String) (hrefs : List String)
    (hmem : h ∈ hrefs) (hbad : (urljoinL fu.data h.data).bind clean_link = none) :
    collectLinks fu hrefs = none := by
  induction hrefs with
  | nil => exact absurd hmem (List.not_mem_nil h)
  | cons a rest ih =>
    simp only [collectLinks]
    rcases List.mem_cons.1 hmem with heq | hm
    · subst heq; simp only [hbad]
    · cases hres : (urljoinL fu.data a.data).bind clean_link with
      | none => rfl
      | some cl => simp only [ih hm]

/-! ## Claim C4 -/

set_option maxHeartbeats 1000000 in
/-- C4: extraction after normalization behaves as specified on the two
reference inputs — `extract_emails (normalize_text "contact us at foo [at]
bar [dot] com")` contains `"foo@bar.com"`, and `extract_emails
(normalize_text "no emails here")` is empty; in general, text with zero
email-shaped matches yields the empty set (and never an error: the
functions are total). -/
theorem C4_extraction_reference (t : String)
    (hnone : findEmailsAux t.data.length t.data = []) :
    "foo@bar.com" ∈ extract_emails (normalize_text "contact us at foo [at] bar [dot] com") ∧
    extract_emails (normalize_text "no emails here") = [] ∧
    extract_emails t = [] := by
  refine ⟨by decide, by decide, ?_⟩
  unfold extract_emails
  rw [hnone]
  rfl

theorem C4_extraction_reference_witness :
    findEmailsAux ("nothing here" : String).data.length ("nothing here" : String).data = [] ∧
    extract_emails "nothing here" = [] :=
  ⟨by decide, (C4_extraction_reference "nothing here" (by decide)).2.2⟩

/-- Processing a pending completed future increments `pages_scanned` by
exactly one, whatever its outcome. -/
theorem processDone_pagesScanned_of_mem (cfg : CrawlConfig) (bd : String) (w : World)
    (url : String) (st : CrawlState) (hmem : url ∈ st.inflight) :
    (processDone cfg bd w url st).pagesScanned = st.pagesScanned + 1 := by
  simp only [processDone, if_pos hmem]
  split
  · exact ((processLinks_fields _ _ _ _).1).trans ((addRecords_fields _ _ _).1)
  · exact (addRecords_fields _ _ _).1

/-! ## Claim C6 -/

/-- C6: every fetch failure collapses to an empty outcome and is non-fatal:
an exception (transport error, timeout, parse error) or a non-200 status
makes `crawl_page` return zero records and zero links; the completed job
still increments `pages_scanned` by exactly one; and once the frontier is
drained (`future_to_url` empty) the loop terminates immediately, whatever
the remaining schedule. -/
theorem C6_fetch_failure_empty_nonfatal
    (cfg : CrawlConfig) (baseDomain : String) (w : World) (url : String)
    (st stDrained : CrawlState) (sched : List (List String))
    (status : Nat) (fu : String) (doc : Document)
    (hst : status ≠ 200) (hmem : url ∈ st.inflight) (hdrain : stDrained.inflight = []) :
    crawl_page HttpResult.exn = ([], []) ∧
    crawl_page (HttpResult.ok status fu doc) = ([], []) ∧
    (processDone cfg baseDomain w url st).pagesScanned = st.pagesScanned + 1 ∧
    runLoop cfg baseDomain w sched stDrained = stDrained := by
  refine ⟨rfl, ?_, ?_, ?_⟩
  · simp only [crawl_page]
    rw [if_pos hst]
  · exact processDone_pagesScanned_of_mem cfg baseDomain w url st hmem
  · cases sched with
    | nil => rfl
    | cons b r =>
      simp only [runLoop]
      rw [if_neg fun hcon => hcon.1 hdrain]

theorem C6_fetch_failure_empty_nonfatal_witness :
    ((404 : Nat) ≠ 200 ∧ "u" ∈ (⟨[], ["u"], 0, [], [], [], []⟩ : CrawlState).inflight ∧
      (⟨["a"], [], 3, [], [], [], []⟩ : CrawlState).inflight = []) ∧
    crawl_page HttpResult.exn = ([], []) ∧
    crawl_page (HttpResult.ok 404 "f" ⟨none, "", []⟩) = ([], []) ∧
    (processDone ⟨"https://a.com/", 10, true⟩ "a.com" (fun _ => HttpResult.exn) "u"
      ⟨[], ["u"], 0, [], [], [], []⟩).pagesScanned = 0 + 1 ∧
    runLoop ⟨"https://a.com/", 10, true⟩ "a.com" (fun _ => HttpResult.exn) [["x"]]
      ⟨["a"], [], 3, [], [], [], []⟩ = ⟨["a"], [], 3, [], [], [], []⟩ :=
  ⟨⟨by decide, by decide, by decide⟩,
    C6_fetch_failure_empty_nonfatal ⟨"https://a.com/", 10, true⟩ "a.com"
      (fun _ => HttpResult.exn) "u" ⟨[], ["u"], 0, [], [], [], []⟩
      ⟨["a"], [], 3, [], [], [], []⟩ [["x"]] 404 "f" ⟨none, "", []⟩
      (by decide) (by decide) (by decide)⟩

/-! ## Claim C7 -/

/-- C7 counterexample: a page (status 200, one email in the text) whose
href list contains one unparseable href (`"http://["` makes `urljoin`
raise `ValueError`) yields `([], [])` — the page's records and its other,
resolvable link are NOT returned — whereas the same page without the
malformed href yields the record and the link.  This refutes the claim
that only the single link is dropped. -/
theorem C7_counterexample :
    crawl_page (HttpResult.ok 200 "http://a.com/"
        ⟨none, "mail x@a.com", ["/good", "http://["]⟩) = ([], []) ∧
    crawl_page (HttpResult.ok 200 "http://a.com/"
        ⟨none, "mail x@a.com", ["/good"]⟩) =
      ([⟨"x@a.com", "http://a.com/", "N/A"⟩], ["http://a.com/good"]) := by
  constructor <;> decide

/-- C7 (amended): a malformed, unparseable href on an otherwise successful
page aborts the WHOLE page: `crawl_page` returns zero records and zero
links (the page-level `except` swallows the `ValueError` raised inside the
link loop), rather than dropping just the single link.  The failure is
still contained to that page. -/
theorem C7_malformed_href_drops_whole_page (fu : String) (doc : Document) (h : String)
    (hmem : h ∈ doc.hrefs) (hbad : (urljoinL fu.data h.data).bind clean_link = none) :
    crawl_page (HttpResult.ok 200 fu doc) = ([], []) := by
  simp only [crawl_page]
  rw [if_neg (show ¬((200 : Nat) ≠ 200) by decide)]
  cases ht : titleOf doc.title with
  | none => rfl
  | some title =>
    rw [collectLinks_eq_none fu h doc.hrefs hmem hbad]

theorem C7_malformed_href_drops_whole_page_witness :
    ("http://[" ∈ (⟨none, "mail x@a.com", ["/good", "http://["]⟩ : Document).hrefs ∧
      (urljoinL ("http://a.com/" : String).data ("http://[" : String).data).bind clean_link
        = none) ∧
    crawl_page (HttpResult.ok 200 "http://a.com/"
        ⟨none, "mail x@a.com", ["/good", "http://["]⟩) = ([], []) :=
  ⟨⟨by decide, by decide⟩,
    C7_malformed_href_drops_whole_page "http://a.com/"
      ⟨none, "mail x@a.com", ["/good", "http://["]⟩ "http://[" (by decide) (by decide)⟩

/-! ## Claim C10 -/

/-- C10: at the fetch interface, a present title element whose `.string`
is `None` (modelled `some none`; `soup.title.string.strip()` raises
`AttributeError`, swallowed by the page-level handler) turns the whole
page into a failure: `crawl_page` returns no records and no links.  The
`"N/A"` placeholder is used exactly when the title element is absent
(`none`): every record of such a page carries `pageTitle = "N/A"`. -/
theorem C10_title_without_string_fails_page
    (fu : String) (doc docNA : Document) (r : EmailItem)
    (h1 : doc.title = some none) (h2 : docNA.title = none)
    (hr : r ∈ (crawl_page (HttpResult.ok 200 fu docNA)).1) :
    crawl_page (HttpResult.ok 200 fu doc) = ([], []) ∧ r.pageTitle = "N/A" := by
  have h200 : ¬((200 : Nat) ≠ 200) := by decide
  constructor
  · simp only [crawl_page]
    rw [if_neg h200, h1]
    rfl
  · simp only [crawl_page] at hr
    rw [if_neg h200, h2] at hr
    simp only [titleOf] at hr
    cases hcl : collectLinks fu docNA.hrefs with
    | none => rw [hcl] at hr; exact absurd hr (List.not_mem_nil r)
    | some links =>
      rw [hcl] at hr
      rcases List.mem_map.1 hr with ⟨e, _, rfl⟩
      rfl

theorem C10_title_without_string_fails_page_witness :
    ((⟨some none, "mail x@a.com", []⟩ : Document).title = some none ∧
      (⟨none, "mail x@a.com", []⟩ : Document).title = none ∧
      (⟨"x@a.com", "http://a.com/", "N/A"⟩ : EmailItem) ∈
        (crawl_page (HttpResult.ok 200 "http://a.com/" ⟨none, "mail x@a.com", []⟩)).1) ∧
    crawl_page (HttpResult.ok 200 "http://a.com/" ⟨some none, "mail x@a.com", []⟩)
      = ([], []) ∧
    (⟨"x@a.com", "http://a.com/", "N/A"⟩ : EmailItem).pageTitle = "N/A" :=
  ⟨⟨rfl, rfl, by decide⟩,
    C10_title_without_string_fails_page "http://a.com/"
      ⟨some none, "mail x@a.com", []⟩ ⟨none, "mail x@a.com", []⟩
      ⟨"x@a.com", "http://a.com/", "N/A"⟩ rfl rfl (by decide)⟩

/-- C5 counterexample: against the base URL `"a:b"` (a scheme outside
`uses_relative`), the hrefs `""` and `"?x"` differ only in their query
string, yet resolving and canonicalizing yields `"a://b"` for the former
(the empty href returns the base itself) and `"://"` for the latter — so
the claim's universal statement over every base URL fails. -/
theorem C5_counterexample :
    snpOf "" = snpOf "?x" ∧ resolveClean "a:b" "" ≠ resolveClean "a:b" "?x" := by
  constructor <;> decide

/-! ## Scheduler invariants (shared by the C1, C2, C8 and C9 theorems) -/

/-- Generic list facts used below. -/
theorem listPrefixSelfApp {α : Type} (l t : List α) : l <+: l ++ t := ⟨t, rfl⟩

theorem listPrefixTrans {α : Type} {l₁ l₂ l₃ : List α} (h1 : l₁ <+: l₂) (h2 : l₂ <+: l₃) :
    l₁ <+: l₃ := by
  rcases h1 with ⟨a, ha⟩
  rcases h2 with ⟨b, hb⟩
  exact ⟨a ++ b, by rw [← hb, ← ha, List.append_assoc]⟩

theorem listPrefixLengthLe {α : Type} {l₁ l₂ : List α} (h : l₁ <+: l₂) :
    l₁.length ≤ l₂.length := by
  rcases h with ⟨a, ha⟩
  rw [← ha, List.length_append]
  exact Nat.le_add_right _ _

theorem listPrefixFullEq {α : Type} {l₁ l₂ : List α} (h : l₁ <+: l₂)
    (hl : l₂.length ≤ l₁.length) : l₁ = l₂ := by
  rcases h with ⟨a, ha⟩
  have : a.length = 0 := by
    have := congrArg List.length ha
    rw [List.length_append] at this
    omega
  rw [← ha, List.length_eq_zero.1 this, List.append_nil]

theorem nodupSnoc {α : Type} : ∀ (l : List α) (a : α), l.Nodup → a ∉ l → (l ++ [a]).Nodup
  | [], a, _, _ => List.nodup_singleton a
  | b :: bl, a, hn, hm => by
    rw [List.cons_append, List.nodup_cons]
    rw [List.nodup_cons] at hn
    rw [List.mem_cons] at hm
    push_neg at hm
    refine ⟨?_, nodupSnoc bl a hn.2 hm.2⟩
    rw [List.mem_append, List.mem_singleton]
    rintro (hb | hb)
    · exact hn.1 hb
    · exact hm.1 hb.symm

theorem dedup_foldl_spec :
    ∀ (d : List EmailItem) (acc : List EmailItem × List String),
      acc.2 = acc.1.map EmailItem.email →
      (d.foldl dedupStep acc).1 = d.foldl firstStep acc.1 ∧
      (d.foldl dedupStep acc).2 = (d.foldl dedupStep acc).1.map EmailItem.email
  | [], acc, h => ⟨rfl, h⟩
  | i :: d, acc, h => by
    rw [List.foldl_cons, List.foldl_cons]
    have hstep1 : (dedupStep acc i).1 = firstStep acc.1 i := by
      unfold dedupStep firstStep
      rw [h]
      split <;> rfl
    have hstep2 : (dedupStep acc i).2 = (dedupStep acc i).1.map EmailItem.email := by
      unfold dedupStep
      rw [h]
      split
      · exact h
      · simp
    have := dedup_foldl_spec d (dedupStep acc i) hstep2
    exact ⟨by rw [this.1, hstep1], this.2⟩

theorem firstRecord_append (l d : List EmailItem) :
    firstRecordPerEmail (l ++ d) = d.foldl firstStep (firstRecordPerEmail l) := by
  unfold firstRecordPerEmail
  rw [List.foldl_append]

theorem firstStep_nodup :
    ∀ (d : List EmailItem) (acc : List EmailItem),
      (acc.map EmailItem.email).Nodup → ((d.foldl firstStep acc).map EmailItem.email).Nodup
  | [], acc, h => h
  | i :: d, acc, h => by
    rw [List.foldl_cons]
    refine firstStep_nodup d _ ?_
    unfold firstStep
    split
    · exact h
    · rw [List.map_append]
      exact nodupSnoc _ _ h (by assumption)

theorem firstRecord_nodup (l : List EmailItem) :
    ((firstRecordPerEmail l).map EmailItem.email).Nodup :=
  firstStep_nodup l [] List.nodup_nil

theorem initState_inv (cfg : CrawlConfig) : Inv cfg (initState cfg.startUrl) := by
  exact ⟨rfl, Nat.le_max_right _ _, List.nodup_singleton _, rfl, fun _ => ⟨rfl, rfl⟩⟩

theorem processLinks_invariants (m : Nat) (bd : String) :
    ∀ (links : List String) (st : CrawlState),
      st.pagesScanned + st.inflight.length = st.visited.length →
      st.visited.length < m →
      st.visited.Nodup →
      st.submitLog = st.visited →
      (processLinks m bd links st).pagesScanned +
          (processLinks m bd links st).inflight.length =
          (processLinks m bd links st).visited.length ∧
        (processLinks m bd links st).visited.length ≤ m ∧
        (processLinks m bd links st).visited.Nodup ∧
        (processLinks m bd links st).submitLog = (processLinks m bd links st).visited ∧
        st.visited <+: (processLinks m bd links st).visited
  | [], st, hE, hlt, hnd, hsub => ⟨hE, Nat.le_of_lt hlt, hnd, hsub, List.prefix_rfl⟩
  | link :: rest, st, hE, hlt, hnd, hsub => by
    rw [processLinks]
    cases hi : is_internal_linkE link bd with
    | none => exact ⟨hE, Nat.le_of_lt hlt, hnd, hsub, List.prefix_rfl⟩
    | some internal =>
      simp only
      split
      · rename_i hcond
        have hE2 : st.pagesScanned + (st.inflight ++ [link]).length =
            (st.visited ++ [link]).length := by
          simp only [List.length_append, List.length_singleton]
          omega
        have hnd2 : (st.visited ++ [link]).Nodup := nodupSnoc _ _ hnd hcond.2
        have hsub2 : st.submitLog ++ [link] = st.visited ++ [link] := by rw [hsub]
        have hlen2 : (st.visited ++ [link]).length ≤ m := by
          simp only [List.length_append, List.length_singleton]
          omega
        split
        · exact ⟨hE2, hlen2, hnd2, hsub2, listPrefixSelfApp _ _⟩
        · rename_i hnotle
          have hlt2 : (st.visited ++ [link]).length < m := Nat.lt_of_not_le hnotle
          have hrec := processLinks_invariants m bd rest
            { st with visited := st.visited ++ [link], inflight := st.inflight ++ [link],
                      submitLog := st.submitLog ++ [link] } hE2 hlt2 hnd2 hsub2
          exact ⟨hrec.1, hrec.2.1, hrec.2.2.1, hrec.2.2.2.1,
            listPrefixTrans (listPrefixSelfApp _ _) hrec.2.2.2.2⟩
      · exact processLinks_invariants m bd rest st hE hlt hnd hsub

/-- `addRecords` keeps the dedup half of the invariant. -/
theorem addRecords_dedup (d : List EmailItem) (st : CrawlState)
    (h1 : st.seenEmails = st.allEmails.map EmailItem.email)
    (h2 : st.allEmails = firstRecordPerEmail st.recordLog) :
    (addRecords true d st).seenEmails = (addRecords true d st).allEmails.map EmailItem.email ∧
    (addRecords true d st).allEmails = firstRecordPerEmail (addRecords true d st).recordLog := by
  have hspec := dedup_foldl_spec d (st.allEmails, st.seenEmails) h1
  constructor
  · show (d.foldl dedupStep (st.allEmails, st.seenEmails)).2 =
      ((d.foldl dedupStep (st.allEmails, st.seenEmails)).1).map EmailItem.email
    exact hspec.2
  · show (d.foldl dedupStep (st.allEmails, st.seenEmails)).1 =
      firstRecordPerEmail (st.recordLog ++ d)
    rw [hspec.1, firstRecord_append, ← h2]

/-- One completed future preserves the master invariant. -/
theorem processDone_inv (cfg : CrawlConfig) (bd : String) (w : World) (url : String)
    (st : CrawlState) (h : Inv cfg st) : Inv cfg (processDone cfg bd w url st) := by
  obtain ⟨hE, hlen, hnd, hsub, hded⟩ := h
  unfold processDone
  by_cases hmem : url ∈ st.inflight
  · rw [if_pos hmem]
    simp only
    have hpos : 1 ≤ st.inflight.length := List.length_pos_of_mem hmem
    have herase : (st.inflight.erase url).length = st.inflight.length - 1 :=
      List.length_erase_of_mem hmem
    have hE1 : (st.pagesScanned + 1) + (st.inflight.erase url).length =
        st.visited.length := by
      rw [herase]; omega
    set st1 : CrawlState :=
      { st with inflight := st.inflight.erase url, pagesScanned := st.pagesScanned + 1 }
      with hst1
    set d := (crawl_page (w url)).1 with hd
    have hfields := addRecords_fields cfg.removeDuplicates d st1
    have hE2 : (addRecords cfg.removeDuplicates d st1).pagesScanned +
        (addRecords cfg.removeDuplicates d st1).inflight.length =
        (addRecords cfg.removeDuplicates d st1).visited.length := by
      rw [hfields.1, hfields.2.1, hfields.2.2.1]
      exact hE1
    have hlen2 : (addRecords cfg.removeDuplicates d st1).visited.length ≤
        max cfg.maxPages 1 := by
      rw [hfields.2.2.1]; exact hlen
    have hnd2 : (addRecords cfg.removeDuplicates d st1).visited.Nodup := by
      rw [hfields.2.2.1]; exact hnd
    have hsub2 : (addRecords cfg.removeDuplicates d st1).submitLog =
        (addRecords cfg.removeDuplicates d st1).visited := by
      rw [hfields.2.2.2, hfields.2.2.1]; exact hsub
    have hded2 : cfg.removeDuplicates = true →
        (addRecords cfg.removeDuplicates d st1).seenEmails =
          (addRecords cfg.removeDuplicates d st1).allEmails.map EmailItem.email ∧
        (addRecords cfg.removeDuplicates d st1).allEmails =
          firstRecordPerEmail (addRecords cfg.removeDuplicates d st1).recordLog := by
      intro hflag
      rw [hflag]
      exact addRecords_dedup d st1 ((hded hflag).1) ((hded hflag).2)
    split
    · rename_i hguard
      have hlt : (addRecords cfg.removeDuplicates d st1).visited.length < cfg.maxPages := by
        omega
      have hPL := processLinks_invariants cfg.maxPages bd (crawl_page (w url)).2 _
        hE2 hlt hnd2 hsub2
      have hPF := processLinks_fields cfg.maxPages bd (crawl_page (w url)).2
        (addRecords cfg.removeDuplicates d st1)
      refine ⟨hPL.1, Nat.le_trans hPL.2.1 (Nat.le_max_left _ _), hPL.2.2.1,
        hPL.2.2.2.1, ?_⟩
      intro hflag
      rw [hPF.2.1, hPF.2.2.1, hPF.2.2.2]
      exact hded2 hflag
    · exact ⟨hE2, hlen2, hnd2, hsub2, hded2⟩
  · rw [if_neg hmem]
    exact ⟨hE, hlen, hnd, hsub, hded⟩

theorem processBatch_inv (cfg : CrawlConfig) (bd : String) (w : World) :
    ∀ (batch : List String) (st : CrawlState), Inv cfg st →
      Inv cfg (processBatch cfg bd w batch st)
  | [], _, h => h
  | u :: rest, st, h =>
    processBatch_inv cfg bd w rest _ (processDone_inv cfg bd w u st h)

theorem runLoop_inv (cfg : CrawlConfig) (bd : String) (w : World) :
    ∀ (sched : List (List String)) (st : CrawlState), Inv cfg st →
      Inv cfg (runLoop cfg bd w sched st)
  | [], _, h => h
  | batch :: rest, st, h => by
    rw [runLoop]
    split
    · split
      · exact processBatch_inv cfg bd w batch st h
      · exact runLoop_inv cfg bd w rest _ (processBatch_inv cfg bd w batch st h)
    · exact h

theorem runCrawl_inv (cfg : CrawlConfig) (w : World) (sched : List (List String))
    (fin : CrawlState) (h : runCrawl cfg w sched = some fin) : Inv cfg fin := by
  unfold runCrawl at h
  split at h
  · exact absurd h (by simp)
  · split at h
    · exact absurd h (by simp)
    · rw [Option.some_inj] at h
      rw [← h]
      exact runLoop_inv cfg _ w sched _ (initState_inv cfg)

/-! ## Growth of the visited set -/

theorem processLinks_visited_mono (m : Nat) (bd : String) :
    ∀ (links : List String) (st : CrawlState),
      st.visited <+: (processLinks m bd links st).visited
  | [], _ => List.prefix_rfl
  | link :: rest, st => by
    rw [processLinks]
    cases hi : is_internal_linkE link bd with
    | none => exact List.prefix_rfl
    | some internal =>
      simp only
      split
      · split
        · exact listPrefixSelfApp _ _
        · exact listPrefixTrans (listPrefixSelfApp _ _)
            (processLinks_visited_mono m bd rest
              { st with visited := st.visited ++ [link], inflight := st.inflight ++ [link],
                        submitLog := st.submitLog ++ [link] })
      · exact processLinks_visited_mono m bd rest st

theorem processDone_visited_mono (cfg : CrawlConfig) (bd : String) (w : World)
    (url : String) (st : CrawlState) :
    st.visited <+: (processDone cfg bd w url st).visited := by
  unfold processDone
  by_cases hmem : url ∈ st.inflight
  · rw [if_pos hmem]
    simp only
    set st1 : CrawlState :=
      { st with inflight := st.inflight.erase url, pagesScanned := st.pagesScanned + 1 }
    set d := (crawl_page (w url)).1
    have hfields := addRecords_fields cfg.removeDuplicates d st1
    split
    · have := processLinks_visited_mono cfg.maxPages bd (crawl_page (w url)).2
        (addRecords cfg.removeDuplicates d st1)
      rw [hfields.2.2.1] at this
      exact this
    · rw [hfields.2.2.1]
  · rw [if_neg hmem]

theorem processBatch_visited_mono (cfg : CrawlConfig) (bd : String) (w : World) :
    ∀ (batch : List String) (st : CrawlState),
      st.visited <+: (processBatch cfg bd w batch st).visited
  | [], _ => List.prefix_rfl
  | u :: rest, st =>
    listPrefixTrans (processDone_visited_mono cfg bd w u st)
      (processBatch_visited_mono cfg bd w rest _)

theorem runLoop_visited_mono (cfg : CrawlConfig) (bd : String) (w : World) :
    ∀ (sched : List (List String)) (st : CrawlState),
      st.visited <+: (runLoop cfg bd w sched st).visited
  | [], _ => List.prefix_rfl
  | batch :: rest, st => by
    rw [runLoop]
    split
    · split
      · exact processBatch_visited_mono cfg bd w batch st
      · exact listPrefixTrans (processBatch_visited_mono cfg bd w batch st)
          (runLoop_visited_mono cfg bd w rest _)
    · exact List.prefix_rfl

/-- Once the loop condition is false, the loop is inert. -/
theorem runLoop_stopped (cfg : CrawlConfig) (bd : String) (w : World)
    (sched : List (List String)) (st : CrawlState)
    (h : ¬(st.inflight ≠ [] ∧ st.pagesScanned < cfg.maxPages)) :
    runLoop cfg bd w sched st = st := by
  cases sched with
  | nil => rfl
  | cons b r =>
    rw [runLoop]
    exact if_neg h

/-- Running a concatenated schedule runs the pieces in sequence. -/
theorem runLoop_append (cfg : CrawlConfig) (bd : String) (w : World) :
    ∀ (s₁ s₂ : List (List String)) (st : CrawlState),
      runLoop cfg bd w (s₁ ++ s₂) st = runLoop cfg bd w s₂ (runLoop cfg bd w s₁ st)
  | [], s₂, st => rfl
  | b :: r, s₂, st => by
    rw [List.cons_append, runLoop, runLoop]
    by_cases hcond : st.inflight ≠ [] ∧ st.pagesScanned < cfg.maxPages
    · rw [if_pos hcond, if_pos hcond]
      by_cases hbreak : cfg.maxPages ≤ (processBatch cfg bd w b st).pagesScanned
      · rw [if_pos hbreak, if_pos hbreak]
        exact (runLoop_stopped cfg bd w s₂ _ fun hc => Nat.not_le.2 hc.2 hbreak).symm
      · rw [if_neg hbreak, if_neg hbreak]
        exact runLoop_append cfg bd w r s₂ _
    · rw [if_neg hcond, if_neg hcond]
      exact (runLoop_stopped cfg bd w s₂ st hcond).symm

/-! ## Claims C1, C2, C8, C9 -/

/-- C1: for every completed crawl with `maxPages` a positive integer,
`pagesScanned ≤ maxPages` at termination, for every world and every
completion schedule (several jobs completing in one wait batch included):
each URL enters `visited` exactly when it is submitted, so `len(visited)`
counts submissions exactly, the link-queueing brake keeps it at most
`maxPages`, and each completion is counted once. -/
theorem C1_pages_scanned_le_max (cfg : CrawlConfig) (w : World)
    (sched : List (List String)) (fin : CrawlState)
    (hrun : runCrawl cfg w sched = some fin) (hpos : 1 ≤ cfg.maxPages) :
    fin.pagesScanned ≤ cfg.maxPages := by
  obtain ⟨hE, hlen, -, -, -⟩ := runCrawl_inv cfg w sched fin hrun
  have hmax : max cfg.maxPages 1 = cfg.maxPages := Nat.max_eq_left hpos
  omega

theorem C1_pages_scanned_le_max_witness :
    (runCrawl ⟨"https://a.com/", 10, true⟩ (fun _ => HttpResult.exn) [["https://a.com/"]]
        = some ⟨["https://a.com/"], [], 1, [], [], ["https://a.com/"], []⟩ ∧
      (1 : Nat) ≤ 10) ∧
    (⟨["https://a.com/"], [], 1, [], [], ["https://a.com/"], []⟩ : CrawlState).pagesScanned
      ≤ (⟨"https://a.com/", 10, true⟩ : CrawlConfig).maxPages :=
  ⟨⟨by decide, by decide⟩,
    C1_pages_scanned_le_max ⟨"https://a.com/", 10, true⟩ (fun _ => HttpResult.exn)
      [["https://a.com/"]] ⟨["https://a.com/"], [], 1, [], [], ["https://a.com/"], []⟩
      (by decide) (by decide)⟩

/-- C2: every URL is submitted as a fetch job at most once: the ghost
submission log equals the visited set (a URL enters `visited` at the
moment it is submitted — the start URL at initialization, each link right
before its job is created), the log has no duplicates (a URL already in
`visited` is never resubmitted, however many pages link to it), and the
visited set only ever grows — continuing the crawl with any further
completions only appends to it, never removes. -/
theorem C2_url_submitted_at_most_once (cfg : CrawlConfig) (w : World)
    (sched sched' : List (List String)) (fin fin' : CrawlState)
    (hrun : runCrawl cfg w sched = some fin)
    (hrun' : runCrawl cfg w (sched ++ sched') = some fin') :
    fin.submitLog = fin.visited ∧ fin.submitLog.Nodup ∧ fin.visited <+: fin'.visited := by
  obtain ⟨-, -, hnd, hsub, -⟩ := runCrawl_inv cfg w sched fin hrun
  refine ⟨hsub, hsub ▸ hnd, ?_⟩
  unfold runCrawl at hrun hrun'
  by_cases h0 : cfg.startUrl = ""
  · rw [if_pos h0] at hrun
    exact absurd hrun (by simp)
  · rw [if_neg h0] at hrun hrun'
    cases hp : urlparseL cfg.startUrl.data [] with
    | none =>
      rw [hp] at hrun
      exact absurd hrun (by simp)
    | some p =>
      simp only [hp] at hrun hrun'
      rw [Option.some_inj] at hrun hrun'
      rw [← hrun, ← hrun', runLoop_append]
      exact runLoop_visited_mono cfg _ w sched' _

theorem C2_url_submitted_at_most_once_witness :
    (runCrawl ⟨"https://a.com/", 10, true⟩ (fun _ => HttpResult.exn) [["https://a.com/"]]
        = some ⟨["https://a.com/"], [], 1, [], [], ["https://a.com/"], []⟩ ∧
      runCrawl ⟨"https://a.com/", 10, true⟩ (fun _ => HttpResult.exn)
          ([["https://a.com/"]] ++ [["z"]])
        = some ⟨["https://a.com/"], [], 1, [], [], ["https://a.com/"], []⟩) ∧
    ((⟨["https://a.com/"], [], 1, [], [], ["https://a.com/"], []⟩ : CrawlState).submitLog =
        (⟨["https://a.com/"], [], 1, [], [], ["https://a.com/"], []⟩ : CrawlState).visited ∧
      (⟨["https://a.com/"], [], 1, [], [], ["https://a.com/"], []⟩ : CrawlState).submitLog.Nodup ∧
      (⟨["https://a.com/"], [], 1, [], [], ["https://a.com/"], []⟩ : CrawlState).visited <+:
        (⟨["https://a.com/"], [], 1, [], [], ["https://a.com/"], []⟩ : CrawlState).visited) :=
  ⟨⟨by decide, by decide⟩,
    C2_url_submitted_at_most_once ⟨"https://a.com/", 10, true⟩ (fun _ => HttpResult.exn)
      [["https://a.com/"]] [["z"]] _ _ (by decide) (by decide)⟩

/-- C8: with `maxPages = 1`, no discovered link is ever submitted and at
most one job completes: for every world and schedule the submission log
stays `[startUrl]` and `pagesScanned ≤ 1`; under the canonical schedule
that delivers the start URL's completion, exactly one job completes
(`pagesScanned = 1`), whatever page content the seed returns. -/
theorem C8_max_pages_one (startUrl : String) (dedup : Bool) (w : World) :
    (∀ (sched : List (List String)) (fin : CrawlState),
        runCrawl ⟨startUrl, 1, dedup⟩ w sched = some fin →
        fin.submitLog = [startUrl] ∧ fin.pagesScanned ≤ 1) ∧
    (∀ fin : CrawlState,
        runCrawl ⟨startUrl, 1, dedup⟩ w [[startUrl]] = some fin →
        fin.pagesScanned = 1) := by
  have hextract : ∀ (sched : List (List String)) (fin : CrawlState),
      runCrawl ⟨startUrl, 1, dedup⟩ w sched = some fin →
      ∃ bd, runLoop ⟨startUrl, 1, dedup⟩ bd w sched (initState startUrl) = fin := by
    intro sched fin hrun
    unfold runCrawl at hrun
    by_cases h0 : (⟨startUrl, 1, dedup⟩ : CrawlConfig).startUrl = ""
    · rw [if_pos h0] at hrun
      exact absurd hrun (by simp)
    · rw [if_neg h0] at hrun
      cases hp : urlparseL (⟨startUrl, 1, dedup⟩ : CrawlConfig).startUrl.data [] with
      | none =>
        rw [hp] at hrun
        exact absurd hrun (by simp)
      | some p =>
        simp only [hp] at hrun
        rw [Option.some_inj] at hrun
        exact ⟨String.mk p.netloc, hrun⟩
  constructor
  · intro sched fin hrun
    obtain ⟨hE, hlen, -, hsub, -⟩ :=
      runCrawl_inv ⟨startUrl, 1, dedup⟩ w sched fin hrun
    obtain ⟨bd, hfin⟩ := hextract sched fin hrun
    have hpre : [startUrl] <+: fin.visited := by
      rw [← hfin]
      exact runLoop_visited_mono ⟨startUrl, 1, dedup⟩ bd w sched (initState startUrl)
    have hvis : [startUrl] = fin.visited :=
      listPrefixFullEq hpre (by simpa using hlen)
    have hlen1 : fin.visited.length = 1 := by
      rw [← hvis]
      rfl
    refine ⟨hsub.trans hvis.symm, ?_⟩
    omega
  · intro fin hrun
    obtain ⟨bd, hfin⟩ := hextract [[startUrl]] fin hrun
    have hmem : startUrl ∈ (initState startUrl).inflight := List.mem_singleton.2 rfl
    have hpb : (processBatch ⟨startUrl, 1, dedup⟩ bd w [startUrl]
        (initState startUrl)).pagesScanned = 1 :=
      processDone_pagesScanned_of_mem ⟨startUrl, 1, dedup⟩ bd w startUrl
        (initState startUrl) hmem
    have hloop : runLoop ⟨startUrl, 1, dedup⟩ bd w [[startUrl]] (initState startUrl) =
        processBatch ⟨startUrl, 1, dedup⟩ bd w [startUrl] (initState startUrl) := by
      rw [runLoop, if_pos ⟨List.cons_ne_nil _ _, Nat.zero_lt_one⟩,
        if_pos (le_of_eq hpb.symm)]
    rw [← hfin, hloop, hpb]

theorem C8_max_pages_one_witness :
    (runCrawl ⟨"https://a.com/", 1, true⟩ (fun _ => HttpResult.exn) [["https://a.com/"]]
        = some ⟨["https://a.com/"], [], 1, [], [], ["https://a.com/"], []⟩) ∧
    ((⟨["https://a.com/"], [], 1, [], [], ["https://a.com/"], []⟩ : CrawlState).submitLog
        = ["https://a.com/"] ∧
      (⟨["https://a.com/"], [], 1, [], [], ["https://a.com/"], []⟩ : CrawlState).pagesScanned
        ≤ 1) ∧
    (⟨["https://a.com/"], [], 1, [], [], ["https://a.com/"], []⟩ : CrawlState).pagesScanned
      = 1 :=
  ⟨by decide,
    (C8_max_pages_one "https://a.com/" true (fun _ => HttpResult.exn)).1
      [["https://a.com/"]] _ (by decide),
    (C8_max_pages_one "https://a.com/" true (fun _ => HttpResult.exn)).2 _ (by decide)⟩

/-- C9: with dedup enabled, for every completed crawl no two records in
`all_emails` share an email value; `seen_emails` equals exactly the email
values of the stored records (and since every schedule prefix is itself a
completed crawl, this holds after every aggregation step); and the record
kept for each email is the first one carrying it in the completion-order
record stream (`firstRecordPerEmail` of the ghost record log), i.e. the
attribution of the first completed job that discovered that email. -/
theorem C9_dedup_invariant (cfg : CrawlConfig) (w : World)
    (sched : List (List String)) (fin : CrawlState)
    (hflag : cfg.removeDuplicates = true)
    (hrun : runCrawl cfg w sched = some fin) :
    (fin.allEmails.map EmailItem.email).Nodup ∧
    fin.seenEmails = fin.allEmails.map EmailItem.email ∧
    fin.allEmails = firstRecordPerEmail fin.recordLog := by
  obtain ⟨-, -, -, -, hded⟩ := runCrawl_inv cfg w sched fin hrun
  obtain ⟨h1, h2⟩ := hded hflag
  exact ⟨h2 ▸ firstRecord_nodup _, h1, h2⟩

theorem C9_dedup_invariant_witness :
    ((⟨"https://a.com/", 10, true⟩ : CrawlConfig).removeDuplicates = true ∧
      runCrawl ⟨"https://a.com/", 10, true⟩ (fun _ => HttpResult.exn) [["https://a.com/"]]
        = some ⟨["https://a.com/"], [], 1, [], [], ["https://a.com/"], []⟩) ∧
    (((⟨["https://a.com/"], [], 1, [], [], ["https://a.com/"], []⟩ : CrawlState).allEmails.map
        EmailItem.email).Nodup ∧
      (⟨["https://a.com/"], [], 1, [], [], ["https://a.com/"], []⟩ : CrawlState).seenEmails =
        (⟨["https://a.com/"], [], 1, [], [], ["https://a.com/"], []⟩ : CrawlState).allEmails.map
          EmailItem.email ∧
      (⟨["https://a.com/"], [], 1, [], [], ["https://a.com/"], []⟩ : CrawlState).allEmails =
        firstRecordPerEmail
          (⟨["https://a.com/"], [], 1, [], [], ["https://a.com/"], []⟩ : CrawlState).recordLog) :=
  ⟨⟨rfl, by decide⟩,
    C9_dedup_invariant ⟨"https://a.com/", 10, true⟩ (fun _ => HttpResult.exn)
      [["https://a.com/"]] _ rfl (by decide)⟩

theorem urlunsplit_decompose (s n p q f : List Char) :
    urlunsplitL s n p q f = urlunsplitL s n p [] [] ++ qfSuffix q f := by
  unfold urlunsplitL qfSuffix
  by_cases hq : q = [] <;> by_cases hf : f = [] <;>
    simp [hq, hf, List.append_assoc]

/-- Shape of the suffix: empty, or headed by `?` or `#`. -/
theorem qfSuffix_shape (q f : List Char) :
    qfSuffix q f = [] ∨ ∃ c r, qfSuffix q f = c :: r ∧ (c = '?' ∨ c = '#') := by
  by_cases hq : q = []
  · by_cases hf : f = []
    · exact Or.inl (by simp [qfSuffix, hq, hf])
    · exact Or.inr ⟨'#', f, by simp [qfSuffix, hq, hf], Or.inr rfl⟩
  · exact Or.inr ⟨'?', q ++ (if f = [] then [] else '#' :: f),
      by simp [qfSuffix, hq], Or.inl rfl⟩

theorem takeWhileLenEq {p : Char → Bool} :
    ∀ (l : List Char), (l.takeWhile p).length = l.length → l.takeWhile p = l
  | [], _ => rfl
  | c :: cs, h => by
    cases hc : p c
    · rw [List.takeWhile_cons_of_neg (by simp [hc])] at h
      simp at h
    · rw [List.takeWhile_cons_of_pos (by simp [hc])] at h ⊢
      simp only [List.length_cons, Nat.add_right_cancel_iff] at h
      rw [takeWhileLenEq cs h]

theorem takeWhileLenLe {p : Char → Bool} :
    ∀ (l : List Char), (l.takeWhile p).length ≤ l.length
  | [] => Nat.le_refl _
  | c :: cs => by
    cases hc : p c
    · rw [List.takeWhile_cons_of_neg (by simp [hc])]
      simp
    · rw [List.takeWhile_cons_of_pos (by simp [hc])]
      simpa using takeWhileLenLe cs

/-- The scheme-split of `X ++ sfx` for a `?`/`#`-headed suffix: same
scheme, remainder extended by the suffix. -/
theorem schemeSplit_append (X sfx d : List Char)
    (hsfx : sfx = [] ∨ ∃ c r, sfx = c :: r ∧ (c = '?' ∨ c = '#')) :
    schemeSplit (X ++ sfx) d = ((schemeSplit X d).1, (schemeSplit X d).2 ++ sfx) := by
  rcases hsfx with rfl | ⟨c, r, rfl, hc⟩
  · simp
  · by_cases hlen : (X.takeWhile fun a => !(a == ':')).length = X.length
    · -- no `:` in `X`: the scheme-validity check fails on both sides
      have hXtw : X.takeWhile (fun a => !(a == ':')) = X := takeWhileLenEq X hlen
      have hXall : ∀ a ∈ X, (!(a == ':')) = true :=
        List.takeWhile_eq_self_iff.mp hXtw
      have hcc : (!(c == ':')) = true := by rcases hc with rfl | rfl <;> rfl
      have hbadc : isSchemeChar c = false := by rcases hc with rfl | rfl <;> rfl
      have htw : (X ++ c :: r).takeWhile (fun a => !(a == ':')) =
          X ++ c :: r.takeWhile (fun a => !(a == ':')) := by
        rw [List.takeWhile_append_of_pos hXall, List.takeWhile_cons, hcc]
        simp
      simp only [schemeSplit]
      split
      · rename_i h
        exfalso
        rw [Bool.and_eq_true] at h
        have hall := h.2
        rw [htw, List.all_append, List.all_cons, hbadc] at hall
        simp at hall
      · split
        · rename_i h2
          exfalso
          rw [Bool.and_eq_true, Bool.and_eq_true, Bool.and_eq_true] at h2
          have hlt := of_decide_eq_true h2.1.1.1
          omega
        · simp
    · -- `:` occurs in `X`: the prefix before it is the same on both sides
      have hlt : (X.takeWhile fun a => !(a == ':')).length < X.length :=
        Nat.lt_of_le_of_ne (takeWhileLenLe X) hlen
      have htw : (X ++ c :: r).takeWhile (fun a => !(a == ':')) =
          X.takeWhile (fun a => !(a == ':')) := by
        rw [List.takeWhile_append]
        exact if_neg hlen
      have hlt2 : (X.takeWhile fun a => !(a == ':')).length < (X ++ c :: r).length := by
        rw [List.length_append]
        omega
      have hdrop : (X ++ c :: r).drop ((X.takeWhile fun a => !(a == ':')).length + 1) =
          X.drop ((X.takeWhile fun a => !(a == ':')).length + 1) ++ c :: r :=
        List.drop_append_of_le_length (by omega)
      simp only [schemeSplit]
      rw [htw, decide_eq_true hlt2, decide_eq_true hlt]
      simp only [Bool.true_and]
      split
      · rw [hdrop]
      · rfl

/-- The netloc-split of `Y ++ sfx` for a `?`/`#`-headed suffix: same
netloc, remainder extended by the suffix. -/
theorem netlocSplit_append (Y sfx : List Char)
    (hsfx : sfx = [] ∨ ∃ c r, sfx = c :: r ∧ (c = '?' ∨ c = '#')) :
    netlocSplit (Y ++ sfx) = ((netlocSplit Y).1, (netlocSplit Y).2 ++ sfx) := by
  rcases hsfx with rfl | ⟨c, r, rfl, hc⟩
  · simp
  · have hcslash : c ≠ '/' := by rcases hc with rfl | rfl <;> decide
    have hcdelim : notNetlocDelim c = false := by rcases hc with rfl | rfl <;> rfl
    by_cases h2 : 2 ≤ Y.length
    · have htake : (Y ++ c :: r).take 2 = Y.take 2 :=
        List.take_append_of_le_length h2
      have hdrop : (Y ++ c :: r).drop 2 = Y.drop 2 ++ c :: r :=
        List.drop_append_of_le_length h2
      simp only [netlocSplit, htake, hdrop]
      split
      · by_cases hstop : ((Y.drop 2).takeWhile notNetlocDelim).length = (Y.drop 2).length
        · have hall : ∀ a ∈ Y.drop 2, notNetlocDelim a = true :=
            List.takeWhile_eq_self_iff.mp (takeWhileLenEq _ hstop)
          have htw : (Y.drop 2 ++ c :: r).takeWhile notNetlocDelim =
              Y.drop 2 ++ [] := by
            rw [List.takeWhile_append_of_pos hall, List.takeWhile_cons, hcdelim]
            simp
          have hdw : (Y.drop 2 ++ c :: r).dropWhile notNetlocDelim = c :: r := by
            rw [List.dropWhile_append_of_pos hall, List.dropWhile_cons, hcdelim]
            simp
          have hdwY : (Y.drop 2).dropWhile notNetlocDelim = [] :=
            List.dropWhile_eq_nil_iff.mpr hall
          rw [htw, hdw, takeWhileLenEq _ hstop, hdwY]
          simp
        · have htw : (Y.drop 2 ++ c :: r).takeWhile notNetlocDelim =
              (Y.drop 2).takeWhile notNetlocDelim := by
            rw [List.takeWhile_append]
            exact if_neg hstop
          have hne : ¬((Y.drop 2).dropWhile notNetlocDelim = []) := fun hnil => by
            have hall := List.dropWhile_eq_nil_iff.mp hnil
            exact hstop (congrArg List.length (List.takeWhile_eq_self_iff.mpr hall))
          have hdw : (Y.drop 2 ++ c :: r).dropWhile notNetlocDelim =
              (Y.drop 2).dropWhile notNetlocDelim ++ c :: r := by
            rw [List.dropWhile_append]
            rw [if_neg (by simpa [List.isEmpty_iff] using hne)]
          rw [htw, hdw]
      · rfl
    · have hY2 : (Y.take 2 == ['/', '/']) = false := by
        rw [beq_eq_false_iff_ne]
        intro heq
        have := congrArg List.length heq
        rw [List.length_take] at this
        simp at this
        omega
      have hYc2 : ((Y ++ c :: r).take 2 == ['/', '/']) = false := by
        rw [beq_eq_false_iff_ne]
        cases Y with
        | nil =>
          intro heq
          have heq2 : c :: r.take 1 = ['/', '/'] := heq
          injection heq2 with hh _
          exact hcslash hh
        | cons y ys =>
          cases ys with
          | nil =>
            intro heq
            have heq2 : y :: c :: ([] : List Char) = ['/', '/'] := heq
            injection heq2 with _ hh2
            injection hh2 with hh _
            exact hcslash hh
          | cons y2 ys2 =>
            exact absurd (Nat.le_add_left 2 ys2.length) h2
      simp only [netlocSplit, hY2, hYc2]
      simp

/-- Paths survive a `?query#fragment` suffix: the fragment- and
query-splits both stop at the suffix. -/
theorem splitQF_path (Z q f : List Char)
    (hq : ∀ ch ∈ q, (ch == '#') = false) :
    (splitAtFirst '?' (splitAtFirst '#' (Z ++ qfSuffix q f)).1).1 =
    (splitAtFirst '?' (splitAtFirst '#' Z).1).1 := by
  simp only [splitAtFirst]
  by_cases hZh : (Z.takeWhile fun a => !(a == '#')).length = Z.length
  · have hZeq : Z.takeWhile (fun a => !(a == '#')) = Z := takeWhileLenEq _ hZh
    have hZall : ∀ a ∈ Z, (!(a == '#')) = true :=
      List.takeWhile_eq_self_iff.mp hZeq
    have hsfxtw : (qfSuffix q f).takeWhile (fun a => !(a == '#')) =
        (if q = [] then [] else '?' :: q) := by
      unfold qfSuffix
      by_cases hqnil : q = []
      · by_cases hfnil : f = [] <;>
          simp [hqnil, hfnil, List.takeWhile_cons]
      · have hqall : ∀ a ∈ '?' :: q, (!(a == '#')) = true := by
          intro a ha
          rcases List.mem_cons.mp ha with rfl | ha'
          · rfl
          · simpa using hq a ha'
        by_cases hfnil : f = []
        · simp only [if_neg hqnil, if_pos hfnil, List.append_nil]
          exact List.takeWhile_eq_self_iff.mpr hqall
        · simp only [if_neg hqnil, if_neg hfnil]
          rw [List.takeWhile_append_of_pos hqall, List.takeWhile_cons_of_neg (by simp)]
          rw [List.append_nil]
    have hfrag : (Z ++ qfSuffix q f).takeWhile (fun a => !(a == '#')) =
        Z ++ (if q = [] then [] else '?' :: q) := by
      rw [List.takeWhile_append_of_pos hZall, hsfxtw]
    rw [hfrag, hZeq]
    by_cases hqnil : q = []
    · simp [hqnil]
    · simp only [if_neg hqnil]
      by_cases hZq : (Z.takeWhile fun a => !(a == '?')).length = Z.length
      · have hZqeq : Z.takeWhile (fun a => !(a == '?')) = Z := takeWhileLenEq _ hZq
        have hZqall : ∀ a ∈ Z, (!(a == '?')) = true :=
          List.takeWhile_eq_self_iff.mp hZqeq
        rw [List.takeWhile_append_of_pos hZqall, List.takeWhile_cons_of_neg (by simp),
          List.append_nil, hZqeq]
      · rw [List.takeWhile_append]
        exact if_neg hZq
  · have hfrag : (Z ++ qfSuffix q f).takeWhile (fun a => !(a == '#')) =
        Z.takeWhile (fun a => !(a == '#')) := by
      rw [List.takeWhile_append]
      exact if_neg hZh
    rw [hfrag]

theorem removeUnsafe_append (a b : List Char) :
    removeUnsafe (a ++ b) = removeUnsafe a ++ removeUnsafe b := by
  unfold removeUnsafe
  exact List.filter_append a b

/-- Appending a `?query#fragment` tail does not change the scheme, netloc
or path read back by `urlsplit`. -/
theorem urlsplit_snp_append (X q f d : List Char)
    (hq : ∀ ch ∈ q, (ch == '#') = false)
    (hsafe : removeUnsafe (qfSuffix q f) = qfSuffix q f) :
    (urlsplitL (X ++ qfSuffix q f) d).map (fun r => (r.scheme, r.netloc, r.path)) =
    (urlsplitL X d).map (fun r => (r.scheme, r.netloc, r.path)) := by
  simp only [urlsplitL]
  rw [removeUnsafe_append, hsafe,
    schemeSplit_append (removeUnsafe X) (qfSuffix q f) (removeUnsafe d)
      (qfSuffix_shape q f)]
  dsimp only
  rw [netlocSplit_append ((schemeSplit (removeUnsafe X) (removeUnsafe d)).2)
    (qfSuffix q f) (qfSuffix_shape q f)]
  dsimp only
  split
  · rfl
  · simp only [Option.map_some']
    rw [splitQF_path ((netlocSplit
      ((schemeSplit (removeUnsafe X) (removeUnsafe d)).2)).2) q f hq]

/-- The default scheme only fills the scheme slot when no scheme is found. -/
theorem schemeSplit_default (u d : List Char) :
    (schemeSplit u d).1 = (if (schemeSplit u []).1 = [] then d else (schemeSplit u []).1) ∧
    (schemeSplit u d).2 = (schemeSplit u []).2 := by
  simp only [schemeSplit]
  split
  · rename_i h
    rw [Bool.and_eq_true, Bool.and_eq_true, Bool.and_eq_true] at h
    have hne : ¬(u.takeWhile fun a => !(a == ':')) = [] := by
      have h2 := h.1.1.2
      cases hni : (u.takeWhile fun a => !(a == ':')).isEmpty
      · exact List.isEmpty_eq_false.mp hni
      · rw [hni] at h2
        exact absurd h2 (by simp)
    constructor
    · rw [if_neg (by simpa using hne)]
    · rfl
  · exact ⟨by rw [if_pos rfl], rfl⟩

/-- `urlsplit` with a default scheme, in terms of the plain split. -/
theorem urlsplit_default (u d : List Char) :
    urlsplitL u d = (urlsplitL u []).map fun r =>
      if r.scheme = [] then { r with scheme := removeUnsafe d } else r := by
  simp only [urlsplitL]
  have hnil : removeUnsafe ([] : List Char) = [] := rfl
  rw [hnil]
  obtain ⟨h1, h2⟩ := schemeSplit_default (removeUnsafe u) (removeUnsafe d)
  rw [h1, h2]
  split
  · rfl
  · simp only [Option.map_some']
    by_cases hempty : (schemeSplit (removeUnsafe u) []).1 = []
    · rw [if_pos hempty]
      simp [hempty]
    · rw [if_neg hempty]
      simp [hempty]

/-- `urlparse` in terms of `urlsplit`. -/
theorem urlparse_eq_split (u d : List Char) :
    urlparseL u d = (urlsplitL u d).map fun r =>
      if r.scheme ∈ uses_params ∧ ';' ∈ r.path then
        ⟨r.scheme, r.netloc, (splitParamsL r.path).1, (splitParamsL r.path).2,
          r.query, r.fragment⟩
      else ⟨r.scheme, r.netloc, r.path, [], r.query, r.fragment⟩ := by
  unfold urlparseL
  cases urlsplitL u d with
  | none => rfl
  | some r =>
    simp only [Option.map_some']
    split
    · rfl
    · rfl

/-- `clean_link` in terms of `urlsplit`. -/
theorem clean_link_eq_split (l : List Char) :
    clean_link l = (urlsplitL l []).map fun r =>
      r.scheme ++ "://".data ++ r.netloc ++
        (if r.scheme ∈ uses_params ∧ ';' ∈ r.path then (splitParamsL r.path).1
         else r.path) := by
  unfold clean_link
  rw [urlparse_eq_split]
  cases urlsplitL l [] with
  | none => rfl
  | some r =>
    simp only [Option.map_some']
    split
    · rfl
    · rfl

/-- `clean_link` is a function of the scheme, netloc and path read back
from the string. -/
theorem clean_link_congr_snp (l1 l2 : List Char)
    (h : (urlsplitL l1 []).map (fun r => (r.scheme, r.netloc, r.path)) =
         (urlsplitL l2 []).map fun r => (r.scheme, r.netloc, r.path)) :
    clean_link l1 = clean_link l2 := by
  rw [clean_link_eq_split, clean_link_eq_split]
  cases h1 : urlsplitL l1 [] with
  | none =>
    rw [h1] at h
    cases h2 : urlsplitL l2 [] with
    | none => rfl
    | some r2 => rw [h2] at h; exact absurd h (by simp)
  | some r1 =>
    rw [h1] at h
    cases h2 : urlsplitL l2 [] with
    | none => rw [h2] at h; exact absurd h (by simp)
    | some r2 =>
      rw [h2] at h
      simp only [Option.map_some', Option.some_inj, Prod.mk.injEq] at h
      obtain ⟨hs, hn, hp⟩ := h
      simp only [Option.map_some', hs, hn, hp]

/-- The `.2` of each split phase is a sublist of its input. -/
theorem schemeSplit_snd_sublist (u d : List Char) : List.Sublist (schemeSplit u d).2 u := by
  simp only [schemeSplit]
  split
  · exact List.drop_sublist _ _
  · exact List.Sublist.refl u

theorem netlocSplit_snd_sublist (l : List Char) : List.Sublist (netlocSplit l).2 l := by
  simp only [netlocSplit]
  split
  · exact ((l.drop 2).dropWhile_sublist notNetlocDelim).trans (List.drop_sublist 2 l)
  · exact List.Sublist.refl l

/-- Components read back by a successful `urlsplit`: the query has no
`#`, and query and fragment carry no unsafe characters. -/
theorem urlsplit_qf_facts (u d : List Char) (r : SplitResult)
    (h : urlsplitL u d = some r) :
    (∀ ch ∈ r.query, (ch == '#') = false) ∧
    removeUnsafe r.query = r.query ∧ removeUnsafe r.fragment = r.fragment := by
  simp only [urlsplitL] at h
  split at h
  · exact absurd h (by simp)
  · rw [Option.some_inj] at h
    subst h
    dsimp only
    have hmemq : ∀ ch ∈ (splitAtFirst '?'
        (splitAtFirst '#' (netlocSplit
          (schemeSplit (removeUnsafe u) (removeUnsafe d)).2).2).1).2,
        ch ∈ removeUnsafe u := by
      intro ch hch
      simp only [splitAtFirst] at hch
      have s1 := ((List.tail_sublist _).trans
        (List.dropWhile_sublist _)).subset hch
      have s2 := ((List.takeWhile_sublist _).subset s1)
      have s3 := (netlocSplit_snd_sublist _).subset s2
      exact (schemeSplit_snd_sublist _ _).subset s3
    have hmemf : ∀ ch ∈ (splitAtFirst '#' (netlocSplit
          (schemeSplit (removeUnsafe u) (removeUnsafe d)).2).2).2,
        ch ∈ removeUnsafe u := by
      intro ch hch
      simp only [splitAtFirst] at hch
      have s1 := ((List.tail_sublist _).trans
        (List.dropWhile_sublist _)).subset hch
      have s3 := (netlocSplit_snd_sublist _).subset s1
      exact (schemeSplit_snd_sublist _ _).subset s3
    refine ⟨?_, ?_, ?_⟩
    · intro ch hch
      simp only [splitAtFirst] at hch
      have s1 := ((List.tail_sublist _).trans
        (List.dropWhile_sublist _)).subset hch
      have := List.mem_takeWhile_imp s1
      cases hb : (ch == '#')
      · rfl
      · rw [hb] at this
        exact absurd this (by simp)
    · exact List.filter_eq_self.mpr fun a ha =>
        (List.mem_filter.mp (hmemq a ha)).2
    · exact List.filter_eq_self.mpr fun a ha =>
        (List.mem_filter.mp (hmemf a ha)).2

/-- `qfSuffix` of unsafe-free components is itself unsafe-free. -/
theorem removeUnsafe_qfSuffix (q f : List Char)
    (hq : removeUnsafe q = q) (hf : removeUnsafe f = f) :
    removeUnsafe (qfSuffix q f) = qfSuffix q f := by
  unfold qfSuffix
  rw [removeUnsafe_append]
  have h1 : removeUnsafe (if q = [] then [] else '?' :: q) =
      (if q = [] then [] else '?' :: q) := by
    split
    · rfl
    · rw [show removeUnsafe ('?' :: q) = '?' :: removeUnsafe q from rfl, hq]
  have h2 : removeUnsafe (if f = [] then [] else '#' :: f) =
      (if f = [] then [] else '#' :: f) := by
    split
    · rfl
    · rw [show removeUnsafe ('#' :: f) = '#' :: removeUnsafe f from rfl, hf]
  rw [h1, h2]

/-- `clean_link` ignores the query and fragment handed to `urlunsplit`:
only the scheme, netloc and path of the reassembled string matter. -/
theorem clean_unparse_ignores_qf (s n p q1 f1 q2 f2 : List Char)
    (hq1 : ∀ ch ∈ q1, (ch == '#') = false)
    (hq2 : ∀ ch ∈ q2, (ch == '#') = false)
    (hsq1 : removeUnsafe q1 = q1) (hsf1 : removeUnsafe f1 = f1)
    (hsq2 : removeUnsafe q2 = q2) (hsf2 : removeUnsafe f2 = f2) :
    clean_link (urlunsplitL s n p q1 f1) = clean_link (urlunsplitL s n p q2 f2) := by
  rw [urlunsplit_decompose s n p q1 f1, urlunsplit_decompose s n p q2 f2]
  apply clean_link_congr_snp
  rw [urlsplit_snp_append (urlunsplitL s n p [] []) q1 f1 [] hq1
      (removeUnsafe_qfSuffix q1 f1 hsq1 hsf1),
    urlsplit_snp_append (urlunsplitL s n p [] []) q2 f2 [] hq2
      (removeUnsafe_qfSuffix q2 f2 hsq2 hsf2)]

/-- The query/fragment facts carry over from `urlsplit` to `urlparse`. -/
theorem urlparse_qf_facts (u d : List Char) (r : ParseResult)
    (h : urlparseL u d = some r) :
    (∀ ch ∈ r.query, (ch == '#') = false) ∧
    removeUnsafe r.query = r.query ∧ removeUnsafe r.fragment = r.fragment := by
  rw [urlparse_eq_split] at h
  cases hs : urlsplitL u d with
  | none => rw [hs] at h; exact absurd h (by simp)
  | some r0 =>
    rw [hs, Option.map_some', Option.some_inj] at h
    have hfacts := urlsplit_qf_facts u d r0 hs
    have hq : r.query = r0.query := by rw [← h]; split <;> rfl
    have hf : r.fragment = r0.fragment := by rw [← h]; split <;> rfl
    rw [hq, hf]
    exact hfacts

/-- Two hrefs with the same read-back scheme, netloc and path have
`urlparse` results agreeing on scheme, netloc, path and params, for any
default scheme. -/
theorem urlparse_agree (a b d : List Char)
    (h : (urlsplitL a []).map (fun r => (r.scheme, r.netloc, r.path)) =
         (urlsplitL b []).map fun r => (r.scheme, r.netloc, r.path)) :
    (urlparseL a d).map (fun p => (p.scheme, p.netloc, p.path, p.params)) =
    (urlparseL b d).map fun p => (p.scheme, p.netloc, p.path, p.params) := by
  have key : ∀ u : List Char,
      (urlparseL u d).map (fun p => (p.scheme, p.netloc, p.path, p.params)) =
      ((urlsplitL u []).map fun r => (r.scheme, r.netloc, r.path)).map
        (fun t =>
          if (if t.1 = [] then removeUnsafe d else t.1) ∈ uses_params ∧
              ';' ∈ t.2.2 then
            ((if t.1 = [] then removeUnsafe d else t.1), t.2.1,
              (splitParamsL t.2.2).1, (splitParamsL t.2.2).2)
          else ((if t.1 = [] then removeUnsafe d else t.1), t.2.1, t.2.2, [])) := by
    intro u
    rw [urlparse_eq_split, urlsplit_default]
    cases urlsplitL u [] with
    | none => rfl
    | some r =>
      by_cases hsch : r.scheme = []
      · simp only [Option.map_some', Option.some_inj, hsch, if_pos]
        split <;> rfl
      · simp only [Option.map_some', Option.some_inj, if_neg hsch]
        split <;> rfl
  rw [key a, key b, h]

/-- Appending to `urljoin` then `clean_link`: two nonempty hrefs with the
same read-back scheme, netloc and path canonicalize identically against
any base. -/
theorem urljoin_clean_congr (bs a b : List Char)
    (hab : (urlsplitL a []).map (fun r => (r.scheme, r.netloc, r.path)) =
           (urlsplitL b []).map fun r => (r.scheme, r.netloc, r.path))
    (ha : a ≠ []) (hb : b ≠ []) :
    (urljoinL bs a).bind clean_link = (urljoinL bs b).bind clean_link := by
  by_cases hbs : bs = []
  · rw [hbs]
    simp only [urljoinL, if_pos rfl, Option.some_bind]
    exact clean_link_congr_snp a b hab
  · simp only [urljoinL, if_neg hbs, if_neg ha, if_neg hb]
    cases hbp : urlparseL bs [] with
    | none => rfl
    | some bb =>
      dsimp only
      have hpp := urlparse_agree a b bb.scheme hab
      cases hup1 : urlparseL a bb.scheme with
      | none =>
        rw [hup1] at hpp
        cases hup2 : urlparseL b bb.scheme with
        | none => rfl
        | some u2 => rw [hup2] at hpp; exact absurd hpp (by simp)
      | some u1 =>
        rw [hup1] at hpp
        cases hup2 : urlparseL b bb.scheme with
        | none => rw [hup2] at hpp; exact absurd hpp (by simp)
        | some u2 =>
          rw [hup2] at hpp
          dsimp only
          simp only [Option.map_some', Option.some_inj, Prod.mk.injEq] at hpp
          obtain ⟨hs, hn, hp, hpar⟩ := hpp
          obtain ⟨hq1, hsq1, hsf1⟩ := urlparse_qf_facts a bb.scheme u1 hup1
          obtain ⟨hq2, hsq2, hsf2⟩ := urlparse_qf_facts b bb.scheme u2 hup2
          obtain ⟨hqb, hsqb, hsfb⟩ := urlparse_qf_facts bs [] bb hbp
          by_cases hc1 : u1.scheme ≠ bb.scheme ∨ u1.scheme ∉ uses_relative
          · have hc1b : u2.scheme ≠ bb.scheme ∨ u2.scheme ∉ uses_relative := by
              rw [← hs]; exact hc1
            rw [if_pos hc1, if_pos hc1b, Option.some_bind, Option.some_bind]
            exact clean_link_congr_snp a b hab
          · have hc1b : ¬(u2.scheme ≠ bb.scheme ∨ u2.scheme ∉ uses_relative) := by
              rw [← hs]; exact hc1
            rw [if_neg hc1, if_neg hc1b]
            by_cases hc2 : u1.scheme ∈ uses_netloc ∧ u1.netloc ≠ []
            · have hc2b : u2.scheme ∈ uses_netloc ∧ u2.netloc ≠ [] := by
                rw [← hs, ← hn]; exact hc2
              rw [if_pos hc2, if_pos hc2b, Option.some_bind, Option.some_bind]
              rw [← hs, ← hn, ← hp, ← hpar]
              unfold urlunparseL
              exact clean_unparse_ignores_qf _ _ _ _ _ _ _
                hq1 hq2 hsq1 hsf1 hsq2 hsf2
            · have hc2b : ¬(u2.scheme ∈ uses_netloc ∧ u2.netloc ≠ []) := by
                rw [← hs, ← hn]; exact hc2
              rw [if_neg hc2, if_neg hc2b]
              by_cases hc3 : u1.path = [] ∧ u1.params = []
              · have hc3b : u2.path = [] ∧ u2.params = [] := by
                  rw [← hp, ← hpar]; exact hc3
                rw [if_pos hc3, if_pos hc3b, Option.some_bind, Option.some_bind]
                rw [← hs, ← hn]
                unfold urlunparseL
                refine clean_unparse_ignores_qf _ _ _ _ _ _ _ ?_ ?_ ?_ ?_ ?_ ?_
                · intro ch hch
                  by_cases hqe : u1.query = []
                  · rw [if_pos hqe] at hch
                    exact hqb ch hch
                  · rw [if_neg hqe] at hch
                    exact hq1 ch hch
                · intro ch hch
                  by_cases hqe : u2.query = []
                  · rw [if_pos hqe] at hch
                    exact hqb ch hch
                  · rw [if_neg hqe] at hch
                    exact hq2 ch hch
                · by_cases hqe : u1.query = []
                  · rw [if_pos hqe]
                    exact hsqb
                  · rw [if_neg hqe]
                    exact hsq1
                · exact hsf1
                · by_cases hqe : u2.query = []
                  · rw [if_pos hqe]
                    exact hsqb
                  · rw [if_neg hqe]
                    exact hsq2
                · exact hsf2
              · have hc3b : ¬(u2.path = [] ∧ u2.params = []) := by
                  rw [← hp, ← hpar]; exact hc3
                rw [if_neg hc3, if_neg hc3b, Option.some_bind, Option.some_bind]
                rw [← hs, ← hn, ← hp, ← hpar]
                unfold urlunparseL
                exact clean_unparse_ignores_qf _ _ _ _ _ _ _
                  hq1 hq2 hsq1 hsf1 hsq2 hsf2

theorem strEmptyIff (s : String) : s = "" ↔ s.data = [] := by
  constructor
  · intro h
    rw [h]
  · intro h
    cases s
    simp at h
    rw [h]

set_option maxHeartbeats 1000000 in
/-- C5 (amended): for every base URL and every pair of hrefs which differ
only in their query string and/or fragment (their read-back scheme, netloc
and path agree) and are either both empty or both non-empty, resolving
against the base and canonicalizing (`urljoin` then
`scheme + "://" + netloc + path`) produces the same URL string. -/
theorem C5_canonicalization (base h1 h2 : String)
    (hsnp : snpOf h1 = snpOf h2) (hempty : h1 = "" ↔ h2 = "") :
    resolveClean base h1 = resolveClean base h2 := by
  by_cases h1e : h1 = ""
  · rw [h1e, ← hempty.mp h1e]
  · have h2e : h2 ≠ "" := fun h => h1e (hempty.mpr h)
    unfold resolveClean
    simp only [snpOf] at hsnp
    rw [urljoin_clean_congr base.data h1.data h2.data hsnp
      (fun h => h1e ((strEmptyIff h1).mpr h))
      (fun h => h2e ((strEmptyIff h2).mpr h))]

/-- Witness for C5 at the spec example: `"/about?x=1#y"` and `"/about"`
against base `"https://a.com/p"` canonicalize identically. -/
theorem C5_canonicalization_witness :
    (snpOf "/about?x=1#y" = snpOf "/about" ∧
      (("/about?x=1#y" : String) = "" ↔ ("/about" : String) = "")) ∧
    resolveClean "https://a.com/p" "/about?x=1#y" =
      resolveClean "https://a.com/p" "/about" :=
  ⟨⟨by decide, by decide⟩,
    C5_canonicalization "https://a.com/p" "/about?x=1#y" "/about"
      (by decide) (by decide)⟩

end EmailCrawler

